import Mathlib

/-!
Verification of the JSON configuration patching logic of the
`init-react-project` repository.

The repository has two entry points performing the same setup:

* `src/setup-react.js` — a Node script; its `tsconfig.app.json` patch is at
  lines 143–152:
  * line 145: `content.replace(/\/\*[\s\S]*?\*\//g, '').replace(/\/\/.*$/gm, '')`
  * line 146: `content.replace(/,(s*[}\]])/g, '$1')`  — note the missing
    backslash: the character class is the literal letter `s`, not `\s`.
  * line 148: `JSON.parse(content)`
  * lines 149–151: ensure `compilerOptions`, set `baseUrl` and `paths`
  * line 152: `JSON.stringify(appConfig, null, 2)` written back.
* `src/unnamed/part_000` — a POSIX shell script whose embedded `node -e`
  block (lines 101–111) is identical except line 105 reads
  `content.replace(/,(\s*[}\]])/g, '$1')` with the correct `\s`.

This file embeds the text transformations (the two regex replaces, with
JavaScript regex semantics for these particular patterns), a model of
`JSON.parse` / `JSON.stringify(·, null, 2)` (restricted to integer numeric
literals; the configuration files involved contain no numeric fractions, and
no claim exercises them), the path-alias injection with JavaScript object
semantics (truthiness test on line 149, silent failure of property
assignment on primitive values in sloppy mode, expando properties on arrays
being invisible to `JSON.stringify`), and the composition of the pipeline.

Texts are modelled as `List Char`.  The JavaScript line-terminator and
whitespace classes are modelled by the character sets of the ECMAScript
specification (restricted to unicode scalar values).
-/

/-! ### Character classes -/

/-- Whitespace accepted between tokens by `JSON.parse`: space, tab, line
feed, carriage return (the JSON grammar's `ws`). -/
def isJsonWs (c : Char) : Bool :=
  c = ' ' ∨ c = '\t' ∨ c = '\n' ∨ c = '\r'

/-- ECMAScript line terminators, the characters ending a `//` comment:
LF, CR, LINE SEPARATOR, PARAGRAPH SEPARATOR.  The regex `/\/\/.*$/gm` stops
`.` before any of these and `$` (with the `m` flag) matches there. -/
def isLineTerm (c : Char) : Bool :=
  c = '\n' ∨ c = '\r' ∨ c = ' ' ∨ c = ' '

/-- The ECMAScript `\s` class (WhiteSpace ∪ LineTerminator): used by the
shell entry point's trailing-comma regex `/,(\s*[}\]])/g`. -/
def isJsWs (c : Char) : Bool :=
  c = ' ' ∨ c = '\t' ∨ c = '\n' ∨ c = '\r' ∨ c = '\x0b' ∨ c = '\x0c' ∨
  c = ' ' ∨ c = ' ' ∨ c = ' ' ∨ c = ' ' ∨ c = ' ' ∨
  c = ' ' ∨ c = ' ' ∨ c = ' ' ∨ c = ' ' ∨ c = ' ' ∨
  c = ' ' ∨ c = ' ' ∨ c = ' ' ∨ c = ' ' ∨ c = ' ' ∨
  c = ' ' ∨ c = ' ' ∨ c = '　' ∨ c = '﻿'

/-- Decimal digit test, the regex class `[0-9]` and the JSON number digits. -/
def isDigitChar (c : Char) : Bool :=
  '0' ≤ c ∧ c ≤ '9'

/-! ### Block comment stripping — `replace(/\/\*[\s\S]*?\*\//g, '')`

The regex finds, left to right, a `/*` followed (non-greedily, over any
characters including newlines) by the earliest `*/`, removes the whole
span, and resumes scanning after it.  A `/*` with no later `*/` matches
nothing; since any later candidate's closing `*/` would also lie in the
remaining text, no further match exists and the remainder is kept verbatim.

The recursion is fuelled by the input length so that it is structural and
kernel-computable; `stripBlockComments` supplies the exact fuel. -/

/-- Remainder of the text after the earliest `*/` (the non-greedy close of a
block comment), or `none` when no `*/` occurs. -/
def afterCloseQ : List Char → Option (List Char)
  | [] => none
  | [_] => none
  | c :: d :: rest =>
    if c = '*' ∧ d = '/' then some rest else afterCloseQ (d :: rest)

/-- Fuelled scanner for the block-comment replace (fuel ≥ length suffices). -/
def sbAux : Nat → List Char → List Char
  | _, [] => []
  | _, [c] => [c]
  | 0, cs => cs
  | f + 1, c :: d :: rest =>
    if c = '/' ∧ d = '*' then
      match afterCloseQ rest with
      | some rest2 => sbAux f rest2
      | none => c :: d :: rest
    else c :: sbAux f (d :: rest)

/-- The block-comment strip of line 145 (first replace). -/
def stripBlockComments (cs : List Char) : List Char :=
  sbAux cs.length cs

/-- Earliest-close split: `spanCloseQ cs = some (mid, rest)` when
`cs = mid ++ '*' :: '/' :: rest` and `mid` contains no `*/`.  Instrumented
companion of `afterCloseQ`, recording the skipped span. -/
def spanCloseQ : List Char → Option (List Char × List Char)
  | [] => none
  | [_] => none
  | c :: d :: rest =>
    if c = '*' ∧ d = '/' then some ([], rest)
    else
      match spanCloseQ (d :: rest) with
      | some (mid, r) => some (c :: mid, r)
      | none => none

/-- Instrumented block-comment scanner: returns the kept text together with
the list of removed comment spans (each span includes its delimiters). -/
def sbSplitAux : Nat → List Char → List Char × List (List Char)
  | _, [] => ([], [])
  | _, [c] => ([c], [])
  | 0, cs => (cs, [])
  | f + 1, c :: d :: rest =>
    if c = '/' ∧ d = '*' then
      match spanCloseQ rest with
      | some (mid, rest2) =>
        ((sbSplitAux f rest2).1,
          (c :: d :: (mid ++ ['*', '/'])) :: (sbSplitAux f rest2).2)
      | none => (c :: d :: rest, [])
    else ((c :: (sbSplitAux f (d :: rest)).1), (sbSplitAux f (d :: rest)).2)

/-- The spans removed by the block-comment strip. -/
def blockSpans (cs : List Char) : List (List Char) :=
  (sbSplitAux cs.length cs).2

/-! ### Line comment stripping — `replace(/\/\/.*$/gm, '')`

With the `m` flag, `.` stops before a line terminator and `$` matches
there (or at the end of input), so each match runs from a `//` to the end
of its line; the terminator itself survives.  Scanning resumes at the
terminator, which cannot begin a new match, so a two-state scan is exact. -/

mutual

/-- Normal state of the line-comment scan: on `//` switch to skipping. -/
def slNorm : List Char → List Char
  | [] => []
  | [c] => [c]
  | c :: d :: rest =>
    if c = '/' ∧ d = '/' then slSkip rest else c :: slNorm (d :: rest)

/-- Skipping state: drop characters up to the next line terminator, which is
kept (the regex `.` never consumes it), then resume the normal state. -/
def slSkip : List Char → List Char
  | [] => []
  | c :: rest => if isLineTerm c then c :: slNorm rest else slSkip rest

end

/-- The line-comment strip of line 145 (second replace). -/
def stripLineComments (cs : List Char) : List Char :=
  slNorm cs

/-- Line 145 in full: block comments removed, then line comments. -/
def stripComments (cs : List Char) : List Char :=
  stripLineComments (stripBlockComments cs)

/-! ### Trailing-comma stripping — `replace(/,(X*[}\]])/g, '$1')`

A comma is removed exactly when it is followed by a (maximal) run of
characters of the class `X` and then `}` or `]`; the run and the bracket
are kept (replacement `$1`).  Greedy matching with backtracking coincides
with the maximal-run test because the class never contains `}` or `]`.
Pointwise processing coincides with global scanning because a match's span
after the comma contains no comma.

In the Node script (line 146) the class is the literal letter `s` — the
backslash of the intended `\s` is missing.  In the shell script's embedded
node block (line 105) the class is ECMAScript `\s`. -/

/-- Does the text start with a (possibly empty) run of `p`-characters
followed by `}` or `]`? -/
def runThenBracket (p : Char → Bool) (cs : List Char) : Bool :=
  match cs.dropWhile p with
  | b :: _ => b = '\x7d' ∨ b = ']'
  | [] => false

/-- The trailing-comma replace, parameterised by the character class. -/
def stripTCWith (p : Char → Bool) : List Char → List Char
  | [] => []
  | c :: rest =>
    if c = ',' ∧ runThenBracket p rest then stripTCWith p rest
    else c :: stripTCWith p rest

/-- Line 146 of `setup-react.js`: the class is the literal letter `s`. -/
def stripTrailingCommasJs (cs : List Char) : List Char :=
  stripTCWith (fun c => c = 's') cs

/-- Line 105 of `src/unnamed/part_000`: the class is `\s`. -/
def stripTrailingCommasSh (cs : List Char) : List Char :=
  stripTCWith isJsWs cs

/-- Comment stripping followed by the Node script's comma strip
(lines 145–146). -/
def stripAllJs (cs : List Char) : List Char :=
  stripTrailingCommasJs (stripComments cs)

/-- Comment stripping followed by the shell script's comma strip
(lines 104–105 of the embedded node block). -/
def stripAllSh (cs : List Char) : List Char :=
  stripTrailingCommasSh (stripComments cs)

/-! ### The JSON data model

`ConfigDocument` values as seen by `JSON.parse` / `JSON.stringify`.
Restriction of the model: numeric literals are integers (the JSON grammar's
fraction and exponent parts are omitted; no configuration file or claim in
scope contains a non-integer number), and strings range over unicode scalar
values (no lone surrogates).  The integer model is faithful to JavaScript's
doubles only for magnitudes below `2^53`: larger literals round, and
overflowing ones (`1e999`, or three hundred digits) become `Infinity`,
which `JSON.stringify` re-emits as `null` — a genuine idempotence failure
of the program that integers cannot exhibit.  The idempotence claim is
therefore stated under an explicit `numsSafe` bound restricting documents
to the range where integers and doubles agree. -/

/-- A parsed JSON value.  Object members are in property order (JavaScript
objects preserve insertion order of string keys). -/
inductive JsonValue where
  | null : JsonValue
  | bool (b : Bool) : JsonValue
  | num (n : Int) : JsonValue
  | str (s : List Char) : JsonValue
  | arr (xs : List JsonValue) : JsonValue
  | obj (kvs : List (List Char × JsonValue)) : JsonValue

/-- Property lookup on an object's member list. -/
def lookupKey : List (List Char × JsonValue) → List Char → Option JsonValue
  | [], _ => none
  | (k, v) :: rest, key => if k = key then some v else lookupKey rest key

/-- Property assignment, JavaScript semantics: an existing key keeps its
position and gets the new value; a new key is appended. -/
def setKey : List (List Char × JsonValue) → List Char → JsonValue →
    List (List Char × JsonValue)
  | [], key, v => [(key, v)]
  | (k, w) :: rest, key, v =>
    if k = key then (k, v) :: rest else (k, w) :: setKey rest key v

/-- Building a JavaScript object from parsed members: later duplicate keys
overwrite earlier ones in place (last write wins, first position kept). -/
def mkObj (ms : List (List Char × JsonValue)) : List (List Char × JsonValue) :=
  ms.foldl (fun acc kv => setKey acc kv.1 kv.2) []

/-! ### The parser (`JSON.parse`, line 148) -/

/-- Skip JSON inter-token whitespace. -/
def skipWs : List Char → List Char
  | [] => []
  | c :: rest => if isJsonWs c then skipWs rest else c :: rest

/-- Hexadecimal digit value, for `\uXXXX` escapes. -/
def hexVal (c : Char) : Option Nat :=
  if '0' ≤ c ∧ c ≤ '9' then some (c.toNat - 48)
  else if 'a' ≤ c ∧ c ≤ 'f' then some (c.toNat - 87)
  else if 'A' ≤ c ∧ c ≤ 'F' then some (c.toNat - 55)
  else none

mutual

/-- Body of a JSON string after the opening quote: returns the decoded
characters and the text after the closing quote.  Raw control characters
(below U+0020) are rejected, as by `JSON.parse`. -/
def parseStrBody : List Char → Option (List Char × List Char)
  | [] => none
  | c :: rest =>
    if c = '"' then some ([], rest)
    else if c = '\\' then parseStrEsc rest
    else if c.toNat < 32 then none
    else
      match parseStrBody rest with
      | some (s, r) => some (c :: s, r)
      | none => none

/-- A string escape after the backslash. -/
def parseStrEsc : List Char → Option (List Char × List Char)
  | [] => none
  | e :: rest =>
    if e = '"' ∨ e = '\\' ∨ e = '/' then
      match parseStrBody rest with
      | some (s, r) => some (e :: s, r)
      | none => none
    else if e = 'b' then
      match parseStrBody rest with
      | some (s, r) => some ('\x08' :: s, r)
      | none => none
    else if e = 'f' then
      match parseStrBody rest with
      | some (s, r) => some ('\x0c' :: s, r)
      | none => none
    else if e = 'n' then
      match parseStrBody rest with
      | some (s, r) => some ('\n' :: s, r)
      | none => none
    else if e = 'r' then
      match parseStrBody rest with
      | some (s, r) => some ('\r' :: s, r)
      | none => none
    else if e = 't' then
      match parseStrBody rest with
      | some (s, r) => some ('\t' :: s, r)
      | none => none
    else if e = 'u' then
      match rest with
      | a :: b :: c :: d :: rest2 =>
        match hexVal a, hexVal b, hexVal c, hexVal d with
        | some ha, some hb, some hc, some hd =>
          match parseStrBody rest2 with
          | some (s, r) =>
            some (Char.ofNat (((ha * 16 + hb) * 16 + hc) * 16 + hd) :: s, r)
          | none => none
        | _, _, _, _ => none
      | _ => none
    else none

end

/-- Maximal run of decimal digits. -/
def takeDigits : List Char → List Char × List Char
  | [] => ([], [])
  | c :: rest =>
    if isDigitChar c then
      ((c :: (takeDigits rest).1), (takeDigits rest).2)
    else ([], c :: rest)

/-- Digits to a natural number (most significant first). -/
def digitsToNat (ds : List Char) : Nat :=
  ds.foldl (fun n c => 10 * n + (c.toNat - 48)) 0

/-- A JSON natural-number token: no leading zero unless the number is 0. -/
def parseNatTok : List Char → Option (Nat × List Char)
  | [] => none
  | c :: rest =>
    if c = '0' then
      match rest with
      | d :: _ => if isDigitChar d then none else some (0, rest)
      | [] => some (0, [])
    else if isDigitChar c then
      some (digitsToNat (c :: (takeDigits rest).1), (takeDigits rest).2)
    else none

/-- A JSON integer token with optional minus sign. -/
def parseIntTok : List Char → Option (Int × List Char)
  | [] => none
  | c :: rest =>
    if c = '-' then
      match parseNatTok rest with
      | some (n, r) => some (-(n : Int), r)
      | none => none
    else
      match parseNatTok (c :: rest) with
      | some (n, r) => some ((n : Int), r)
      | none => none

mutual

/-- One JSON value, fuelled (fuel larger than the text length suffices). -/
def parseJValue : Nat → List Char → Option (JsonValue × List Char)
  | 0, _ => none
  | f + 1, cs =>
    match skipWs cs with
    | 'n' :: 'u' :: 'l' :: 'l' :: r => some (.null, r)
    | 't' :: 'r' :: 'u' :: 'e' :: r => some (.bool true, r)
    | 'f' :: 'a' :: 'l' :: 's' :: 'e' :: r => some (.bool false, r)
    | '"' :: r =>
      match parseStrBody r with
      | some (s, r2) => some (.str s, r2)
      | none => none
    | '[' :: r =>
      (match skipWs r with
      | [] => none
      | c :: r2 =>
        if c = ']' then some (.arr [], r2)
        else
          match parseJElems f (c :: r2) with
          | some (xs, r3) => some (.arr xs, r3)
          | none => none)
    | '\x7b' :: r =>
      (match skipWs r with
      | [] => none
      | c :: r2 =>
        if c = '\x7d' then some (.obj [], r2)
        else
          match parseJMembers f (c :: r2) with
          | some (ms, r3) => some (.obj (mkObj ms), r3)
          | none => none)
    | c :: r =>
      if c = '-' ∨ isDigitChar c then
        match parseIntTok (c :: r) with
        | some (n, r2) => some (.num n, r2)
        | none => none
      else none
    | [] => none

/-- One or more comma-separated array elements, up to the closing `]`. -/
def parseJElems : Nat → List Char → Option (List JsonValue × List Char)
  | 0, _ => none
  | f + 1, cs =>
    match parseJValue f cs with
    | none => none
    | some (v, r) =>
      match skipWs r with
      | ',' :: r2 =>
        (match parseJElems f (skipWs r2) with
        | some (vs, r3) => some (v :: vs, r3)
        | none => none)
      | ']' :: r2 => some ([v], r2)
      | _ => none

/-- One or more comma-separated object members, up to the closing `}`. -/
def parseJMembers : Nat → List Char →
    Option (List (List Char × JsonValue) × List Char)
  | 0, _ => none
  | f + 1, cs =>
    match skipWs cs with
    | '"' :: r =>
      (match parseStrBody r with
      | none => none
      | some (key, r1) =>
        match skipWs r1 with
        | ':' :: r2 =>
          (match parseJValue f (skipWs r2) with
          | none => none
          | some (v, r3) =>
            match skipWs r3 with
            | ',' :: r4 =>
              (match parseJMembers f (skipWs r4) with
              | some (ms, r5) => some ((key, v) :: ms, r5)
              | none => none)
            | '\x7d' :: r4 => some ([(key, v)], r4)
            | _ => none)
        | _ => none)
    | _ => none

end

/-- A complete `JSON.parse` run: one value, then only whitespace. -/
def parseTop (cs : List Char) : Option JsonValue :=
  match parseJValue (cs.length + 1) cs with
  | some (v, r) => if skipWs r = [] then some v else none
  | none => none

/-! ### The serializer (`JSON.stringify(·, null, 2)`, line 152) -/

/-- Lower-case hexadecimal digit, for control-character escapes. -/
def hexDigitChar (n : Nat) : Char :=
  if n < 10 then Char.ofNat (48 + n) else Char.ofNat (87 + n)

/-- Decimal digit character. -/
def digitChar (n : Nat) : Char :=
  Char.ofNat (48 + n)

/-- Fuelled most-significant-first decimal digits of a natural number
(fuel bounds the number of digits; `n + 1` always suffices). -/
def natCharsAux : Nat → Nat → List Char → List Char
  | 0, _, acc => acc
  | f + 1, n, acc =>
    if n < 10 then digitChar n :: acc
    else natCharsAux f (n / 10) (digitChar (n % 10) :: acc)

/-- Decimal representation of a natural number. -/
def natChars (n : Nat) : List Char :=
  natCharsAux (n + 1) n []

/-- Decimal representation of an integer, as `JSON.stringify` prints it. -/
def intChars (n : Int) : List Char :=
  if n < 0 then '-' :: natChars n.natAbs else natChars n.natAbs

/-- Escape of one character inside a serialized string, as performed by
`JSON.stringify`: the two-character escapes for quote, backslash, backspace,
form feed, line feed, carriage return and tab, `\u00xx` for the remaining
control characters, and every other character verbatim. -/
def escChar (c : Char) : List Char :=
  if c = '"' then ['\\', '"']
  else if c = '\\' then ['\\', '\\']
  else if c = '\x08' then ['\\', 'b']
  else if c = '\x0c' then ['\\', 'f']
  else if c = '\n' then ['\\', 'n']
  else if c = '\r' then ['\\', 'r']
  else if c = '\t' then ['\\', 't']
  else if c.toNat < 32 then
    ['\\', 'u', '0', '0', hexDigitChar (c.toNat / 16), hexDigitChar (c.toNat % 16)]
  else [c]

/-- Escaped body of a serialized string. -/
def escBody : List Char → List Char
  | [] => []
  | c :: rest => escChar c ++ escBody rest

/-- A serialized string with its quotes. -/
def renderString (s : List Char) : List Char :=
  '"' :: (escBody s ++ ['"'])

mutual

/-- `JSON.stringify(v, null, 2)` at enclosing indentation `ind`: non-empty
arrays and objects break onto lines indented two spaces past `ind`. -/
def stringifyAt (ind : List Char) : JsonValue → List Char
  | .null => "null".data
  | .bool true => "true".data
  | .bool false => "false".data
  | .num n => intChars n
  | .str s => renderString s
  | .arr [] => ['[', ']']
  | .arr (x :: xs) =>
    '[' :: '\n' :: ((ind ++ [' ', ' ']) ++
      (stringifyElems (ind ++ [' ', ' ']) (x :: xs) ++ ('\n' :: (ind ++ [']']))))
  | .obj [] => ['\x7b', '\x7d']
  | .obj (m :: ms) =>
    '\x7b' :: '\n' :: ((ind ++ [' ', ' ']) ++
      (stringifyMembers (ind ++ [' ', ' ']) (m :: ms) ++ ('\n' :: (ind ++ ['\x7d']))))

/-- The element lines of a non-empty serialized array (first element's
indentation already emitted, separator `",\n" ++ ind2` between elements). -/
def stringifyElems (ind2 : List Char) : List JsonValue → List Char
  | [] => []
  | [x] => stringifyAt ind2 x
  | x :: y :: ys =>
    stringifyAt ind2 x ++ (',' :: '\n' :: (ind2 ++ stringifyElems ind2 (y :: ys)))

/-- The member lines of a non-empty serialized object (first member's
indentation already emitted, separator `",\n" ++ ind2` between members). -/
def stringifyMembers (ind2 : List Char) : List (List Char × JsonValue) → List Char
  | [] => []
  | [(k, v)] => renderString k ++ (':' :: ' ' :: stringifyAt ind2 v)
  | (k, v) :: m2 :: ms =>
    renderString k ++ (':' :: ' ' :: stringifyAt ind2 v) ++
      (',' :: '\n' :: (ind2 ++ stringifyMembers ind2 (m2 :: ms)))

end

/-- Top-level serialization (outer indentation is empty). -/
def stringifyTop (d : JsonValue) : List Char :=
  stringifyAt [] d

/-! ### Path-alias injection (lines 149–151)

JavaScript semantics made explicit:

* line 149 `if (!appConfig.compilerOptions) appConfig.compilerOptions = {};`
  tests truthiness: `null`, `false`, `0`, `""` (and an absent property) are
  replaced by `{}`; every other value is kept.
* lines 150–151 then assign `baseUrl` / `paths` on the `compilerOptions`
  value.  If that value is a primitive (number, string, `true`), sloppy-mode
  property assignment silently does nothing.  If it is an array, the
  properties are set as expando properties, which `JSON.stringify` does not
  serialize — both cases leave the observable document unchanged.
* if the parsed document itself is a primitive or `null`, the chain throws a
  `TypeError` (reading or assigning on `undefined`/`null`), aborting the
  setup; if it is an array, the expando properties are invisible and the
  document is observably unchanged. -/

/-- The key `compilerOptions`. -/
def coKey : List Char := "compilerOptions".data

/-- The key `baseUrl`. -/
def baseUrlKey : List Char := "baseUrl".data

/-- The key `paths`. -/
def pathsKey : List Char := "paths".data

/-- The constant alias map `{"@/*": ["./src/*"]}`. -/
def pathsValue : JsonValue :=
  .obj [("@/*".data, .arr [.str "./src/*".data])]

/-- The `compilerOptions` object created from scratch on the falsy branch. -/
def freshCO : JsonValue :=
  .obj [(baseUrlKey, .str ".".data), (pathsKey, pathsValue)]

/-- JavaScript falsiness of a JSON value. -/
def isFalsyJson : JsonValue → Bool
  | .null => true
  | .bool b => !b
  | .num n => n = 0
  | .str s => s = []
  | _ => false

/-- Is the value a JSON object? -/
def isObjJson : JsonValue → Bool
  | .obj _ => true
  | _ => false

/-- Shapes of a pre-existing `compilerOptions` value on which lines 149–151
actually install the alias keys: absent, falsy (replaced by `{}`), or an
object (merged in place).  On a truthy non-object value the assignments are
silently ineffective. -/
def coPatchable : Option JsonValue → Bool
  | none => true
  | some v => isFalsyJson v || isObjJson v

/-- Lines 149–151 on a parsed document: `none` models the `TypeError` thrown
for a primitive or null document (which the `catch` at lines 408–411 turns
into an aborted setup). -/
def injectPathAlias : JsonValue → Option JsonValue
  | .obj kvs =>
    (match lookupKey kvs coKey with
    | none => some (.obj (setKey kvs coKey freshCO))
    | some v =>
      if isFalsyJson v then some (.obj (setKey kvs coKey freshCO))
      else
        match v with
        | .obj m =>
          some (.obj (setKey kvs coKey
            (.obj (setKey (setKey m baseUrlKey (.str ".".data)) pathsKey pathsValue))))
        | _ => some (.obj kvs))
  | .arr xs => some (.arr xs)
  | _ => none

/-! ### The two pipelines -/

/-- The Node script's patch at document level: strip (lines 145–146), parse
(line 148), inject (149–151).  `none` covers both a parse failure and the
`TypeError` on a non-object document. -/
def patchDocJs (t : List Char) : Option JsonValue :=
  match parseTop (stripAllJs t) with
  | some d => injectPathAlias d
  | none => none

/-- The Node script's patch at text level (adds line 152's serialization). -/
def patchTextJs (t : List Char) : Option (List Char) :=
  (patchDocJs t).map stringifyTop

/-- The shell entry point's patch at document level (embedded node block,
lines 104–109 of `part_000`). -/
def patchDocSh (t : List Char) : Option JsonValue :=
  match parseTop (stripAllSh t) with
  | some d => injectPathAlias d
  | none => none

/-- The shell entry point's patch at text level (line 110 serialization). -/
def patchTextSh (t : List Char) : Option (List Char) :=
  (patchDocSh t).map stringifyTop

/-- Outcome of the patch step, separating the spec's error taxonomy:
`malformedConfig` is a `JSON.parse` failure on the stripped text,
`injectError` the `TypeError` of lines 149–151 on a non-object document,
and `written c` the successful write of content `c` to the file. -/
inductive PatchOutcome where
  | written (content : List Char) : PatchOutcome
  | malformedConfig : PatchOutcome
  | injectError : PatchOutcome

/-- The Node script's patch step with its outcome.  Both error outcomes
propagate to the `catch` handler at lines 408–411, which prints the error
and calls `process.exit(1)`: the setup aborts and nothing is written. -/
def patchRunJs (t : List Char) : PatchOutcome :=
  match parseTop (stripAllJs t) with
  | none => .malformedConfig
  | some d =>
    match injectPathAlias d with
    | none => .injectError
    | some d2 => .written (stringifyTop d2)

/-- File contents written to `tsconfig.app.json` by the patch step: one
write on success, none on failure. -/
def patchWritesJs (t : List Char) : List (List Char) :=
  match patchRunJs t with
  | .written c => [c]
  | _ => []

/-! ### Key paths, for the frame property -/

/-- Value of a document at a key path (descending through objects only). -/
def getPath : JsonValue → List (List Char) → Option JsonValue
  | d, [] => some d
  | .obj kvs, k :: ks =>
    (match lookupKey kvs k with
    | some v => getPath v ks
    | none => none)
  | _, _ :: _ => none

/-- Do two key paths overlap, i.e. is either a prefix of the other?  The
patch guarantees preservation exactly at paths overlapping neither
`compilerOptions.baseUrl` nor `compilerOptions.paths`. -/
def pathsOverlap : List (List Char) → List (List Char) → Bool
  | [], _ => true
  | _, [] => true
  | a :: as, b :: bs => a = b ∧ pathsOverlap as bs

/-! ### Well-formed documents

`JSON.parse` builds JavaScript objects, whose keys are unique; the model
keeps member lists explicit, so uniqueness is a predicate.  It is needed for
the parse/stringify round trip (an object list with duplicate keys would
collapse on reparse). -/

/-- Key uniqueness of one member list. -/
def nodupKeysB : List (List Char × JsonValue) → Bool
  | [] => true
  | (k, _) :: rest => (lookupKey rest k).isNone && nodupKeysB rest

mutual

/-- Every object in the document has pairwise distinct keys. -/
def wfDoc : JsonValue → Bool
  | .obj kvs => nodupKeysB kvs && wfMembers kvs
  | .arr xs => wfElems xs
  | _ => true

/-- Well-formedness of array elements. -/
def wfElems : List JsonValue → Bool
  | [] => true
  | x :: xs => wfDoc x && wfElems xs

/-- Well-formedness of object member values. -/
def wfMembers : List (List Char × JsonValue) → Bool
  | [] => true
  | (_, v) :: rest => wfDoc v && wfMembers rest

end

mutual

/-- All numbers in the document lie strictly below `2^53` in magnitude:
the range in which JavaScript doubles represent integers exactly, so the
model's integer arithmetic coincides with the program's.  Outside it,
literals round and overflowing ones parse to `Infinity`, which
`JSON.stringify` re-emits as `null`. -/
def numsSafe : JsonValue → Bool
  | .num n => n.natAbs < 9007199254740992
  | .arr xs => numsSafeElems xs
  | .obj kvs => numsSafeMembers kvs
  | _ => true

/-- `numsSafe` over array elements. -/
def numsSafeElems : List JsonValue → Bool
  | [] => true
  | x :: xs => numsSafe x && numsSafeElems xs

/-- `numsSafe` over object member values. -/
def numsSafeMembers : List (List Char × JsonValue) → Bool
  | [] => true
  | (_, v) :: rest => numsSafe v && numsSafeMembers rest

end

/-- Is the text's first character unable to extend a number token (used to
state where a serialized number may be followed by the remaining input)? -/
def numDelim : List Char → Bool
  | [] => true
  | c :: _ => !isDigitChar c

/-- Does the text contain no two adjacent slashes (no line-comment start)? -/
def noLineCommentStart : List Char → Bool
  | [] => true
  | [_] => true
  | c :: d :: rest => !(c = '/' ∧ d = '/') && noLineCommentStart (d :: rest)

/-! ### The clipboard publisher (`copyToClipboard`, lines 18–49, and its
call site at lines 397–406) -/

/-- Platforms distinguished by `os.platform()` in `copyToClipboard`. -/
inductive Platform where
  | darwin : Platform
  | win32 : Platform
  | linux : Platform
  | other : Platform

/-- Environment facts `copyToClipboard` consults: the platform, whether
`commandExists` finds `xclip` / `xsel` (lines 32–35), and whether the
`execSync` of the assembled pipe command succeeds (line 44). -/
structure ClipEnv where
  platform : Platform
  xclipExists : Bool
  xselExists : Bool
  execOk : Bool

/-- Lines 18–49: build the platform command and run it; `false` on an
unsupported platform, on Linux without a clipboard tool, or when `execSync`
throws (caught at lines 46–48).  The text being copied does not influence
success in the model. -/
def copyToClipboard (env : ClipEnv) (_text : List Char) : Bool :=
  match env.platform with
  | .darwin => env.execOk
  | .win32 => env.execOk
  | .linux =>
    if env.xclipExists then env.execOk
    else if env.xselExists then env.execOk
    else false
  | .other => false

/-- The follow-up command offered to the user (line 397). -/
def nextCommandText (projectName : List Char) : List Char :=
  "cd ".data ++ projectName ++ " && npm run dev".data

/-- Outcome of the final setup step: whether the run completed and what the
success logger printed (lines 394–406; the empty-string separator lines are
omitted). -/
structure FinishReport where
  completed : Bool
  printedLines : List (List Char)

/-- Lines 397–406: try the clipboard; on success announce the copy, on
failure print the next-steps text instead.  Both branches fall through to
normal completion — there is no abort path here. -/
def finishSetup (env : ClipEnv) (projectName : List Char) : FinishReport :=
  if copyToClipboard env (nextCommandText projectName) then
    ⟨true, ["Next command copied to clipboard! Just paste and run:".data,
            "  ".data ++ nextCommandText projectName]⟩
  else
    ⟨true, ["Next steps:".data,
            "  cd ".data ++ projectName,
            "  npm run dev".data]⟩

/-! ### The argument and directory prechecks (lines 86–98 of the Node
script; lines 45–56 of the shell script) -/

/-- Trace of a setup run's externally visible effects: `exitCode` is set
when the process exits early, `commands` are the shell commands issued (in
order) and `writes` the files written. -/
structure SetupTrace where
  exitCode : Option Nat
  commands : List (List Char)
  writes : List (List Char)

/-- The external commands the setup issues once prechecks pass (lines
105–179), in order. -/
def setupCommands (name : List Char) : List (List Char) :=
  ["npm create vite@latest \"".data ++ name ++ "\" -- --template react-ts".data,
   "npm install tailwindcss @tailwindcss/vite".data,
   "npm install -D @types/node".data,
   "npm install lucide-react".data,
   "npm install".data,
   "npx shadcn@latest init --yes --base-color neutral".data,
   "npx shadcn@latest add button card input label dropdown-menu --yes".data]

/-- The files the setup writes once prechecks pass (lines 118–392), in
order of first write. -/
def setupWritePaths : List (List Char) :=
  ["src/index.css".data, "tsconfig.json".data, "tsconfig.app.json".data,
   "vite.config.ts".data, "src/components/theme-provider.tsx".data,
   "src/components/mode-toggle.tsx".data, "index.html".data,
   "src/App.tsx".data, "README.md".data]

/-- The files the shell script writes once its prechecks pass (`cat >`
heredocs and the embedded `fs.writeFileSync`), in order of first write; the
in-place `sed -i` edits of `index.html` modify a file Vite created rather
than writing fresh content and are not listed. -/
def setupWritePathsSh : List (List Char) :=
  ["src/index.css".data, "tsconfig.json".data, "tsconfig.app.json".data,
   "vite.config.ts".data, "src/components/theme-provider.tsx".data,
   "src/components/mode-toggle.tsx".data, "src/App.tsx".data,
   "README.md".data]

/-- Kind of an existing filesystem entry, as far as the two prechecks can
distinguish one. -/
inductive FsEntry where
  | file : FsEntry
  | dir : FsEntry

/-- Line 93 of the Node script: `fs.existsSync(projectName)` is true for an
existing entry of any kind. -/
def existsSyncB (entry : List Char → Option FsEntry) (name : List Char) :
    Bool :=
  (entry name).isSome

/-- Line 53 of the shell script: `[ -d "$PROJECT_NAME" ]` is true only for
an existing directory — an existing plain file does not trip it. -/
def isDirB (entry : List Char → Option FsEntry) (name : List Char) : Bool :=
  match entry name with
  | some FsEntry.dir => true
  | _ => false

/-- Lines 86–98 of the Node script: with fewer than three entries in
`process.argv` (node, script, name) the script prints usage and exits with
status 1; with a name for which `fs.existsSync` finds an entry of any kind
it prints an error and exits with status 1; only otherwise does the `try`
block issue commands and write files.  Error-message printing to the
console is not part of the trace. -/
def setupMainJs (argv : List (List Char))
    (entry : List Char → Option FsEntry) : SetupTrace :=
  if argv.length < 3 then ⟨some 1, [], []⟩
  else
    match argv with
    | _ :: _ :: name :: _ =>
      if existsSyncB entry name then ⟨some 1, [], []⟩
      else ⟨none, setupCommands name, setupWritePaths⟩
    | _ => ⟨some 1, [], []⟩

/-- Lines 44–56 of the shell script over its positional parameters: with
`$# -eq 0` it prints usage and exits with status 1; with `[ -d ]` true of
`$1` it exits with status 1; otherwise — including when an entry named
`$1` exists but is a plain file — it proceeds to the same commands. -/
def setupMainSh (args : List (List Char))
    (entry : List Char → Option FsEntry) : SetupTrace :=
  match args with
  | [] => ⟨some 1, [], []⟩
  | name :: _ =>
    if isDirB entry name then ⟨some 1, [], []⟩
    else ⟨none, setupCommands name, setupWritePathsSh⟩

/-- Most-significant-first decimal digits, as a well-founded specification
function (used only in proofs; `natChars` is its fuelled executable twin). -/
def natDigitsL (n : Nat) : List Char :=
  if n < 10 then [digitChar n] else natDigitsL (n / 10) ++ [digitChar (n % 10)]
decreasing_by exact Nat.div_lt_self (by omega) (by omega)

/-- Does the character `x` not occur in the text? -/
def noChar (x : Char) : List Char → Bool
  | [] => true
  | c :: rest => if c = x then false else noChar x rest

/-- Does the text contain no `/*` pair (no block-comment opener)? -/
def noOpen : List Char → Bool
  | [] => true
  | [_] => true
  | c :: d :: rest => if c = '/' ∧ d = '*' then false else noOpen (d :: rest)

/-- Does the text contain no ECMAScript line terminator? -/
def noLineTermB : List Char → Bool
  | [] => true
  | c :: rest => if isLineTerm c then false else noLineTermB rest

/-- Does the text contain no `*/` pair (no block-comment close)? -/
def noClose : List Char → Bool
  | [] => true
  | [_] => true
  | c :: d :: rest => if c = '*' ∧ d = '/' then false else noClose (d :: rest)

/-- Does the text contain a block-comment opener followed by a close — that
is, a match of the block-comment regex?  Checking the first opener
suffices: a close after any later opener would close the first one too. -/
def hasCloseAfterOpen : List Char → Bool
  | [] => false
  | [_] => false
  | c :: d :: rest =>
    if c = '/' ∧ d = '*' then (afterCloseQ rest).isSome
    else hasCloseAfterOpen (d :: rest)

/-! ## Theorems -/

/-! ### Block-comment scanner: fuel elimination -/

/-- The earliest-close search only ever shortens the text by at least the
two characters of the close. -/
theorem afterCloseQ_length : ∀ cs r, afterCloseQ cs = some r →
    r.length + 2 ≤ cs.length := by
  intro cs
  induction cs using afterCloseQ.induct with
  | case1 => intro r h; simp [afterCloseQ] at h
  | case2 => intro r h; simp [afterCloseQ] at h
  | case3 c d rest hcd =>
    intro r h
    simp [afterCloseQ, hcd] at h
    subst h
    simp
  | case4 c d rest hcd ih =>
    intro r h
    simp only [afterCloseQ, if_neg hcd] at h
    have := ih r h
    simp at this ⊢
    omega

/-- Any fuel at least the length computes the block-comment strip. -/
theorem sbAux_fuel : ∀ n cs f, cs.length ≤ n → cs.length ≤ f →
    sbAux f cs = stripBlockComments cs := by
  intro n
  induction n with
  | zero =>
    intro cs f hn _
    have : cs = [] := List.length_eq_zero.mp (Nat.le_zero.mp hn)
    subst this
    cases f <;> simp [sbAux, stripBlockComments]
  | succ n ih =>
    intro cs f hn hf
    match cs, f with
    | [], f => cases f <;> simp [sbAux, stripBlockComments]
    | [c], f => cases f <;> simp [sbAux, stripBlockComments]
    | c :: d :: rest, 0 => simp at hf
    | c :: d :: rest, f + 1 =>
      simp only [List.length_cons] at hn hf
      show sbAux (f + 1) (c :: d :: rest) = sbAux (rest.length + 1 + 1) (c :: d :: rest)
      simp only [sbAux]
      by_cases hcd : c = '/' ∧ d = '*'
      · simp only [if_pos hcd]
        cases hac : afterCloseQ rest with
        | none => rfl
        | some rest2 =>
          have hlen := afterCloseQ_length rest rest2 hac
          have h1 : sbAux f rest2 = stripBlockComments rest2 :=
            ih rest2 f (by omega) (by omega)
          have h2 : sbAux (rest.length + 1) rest2 = stripBlockComments rest2 :=
            ih rest2 (rest.length + 1) (by omega) (by omega)
          simp only [h1, h2]
      · simp only [if_neg hcd]
        have h1 : sbAux f (d :: rest) = stripBlockComments (d :: rest) :=
          ih (d :: rest) f (by simp only [List.length_cons]; omega)
            (by simp only [List.length_cons]; omega)
        have h2 : sbAux (rest.length + 1) (d :: rest) = stripBlockComments (d :: rest) :=
          ih (d :: rest) (rest.length + 1) (by simp only [List.length_cons]; omega)
            (by simp only [List.length_cons]; omega)
        rw [h1, h2]

/-- Unfolding equation for the block-comment strip, independent of fuel. -/
theorem stripBlockComments_eq (cs : List Char) :
    stripBlockComments cs =
      match cs with
      | [] => []
      | [c] => [c]
      | c :: d :: rest =>
        if c = '/' ∧ d = '*' then
          match afterCloseQ rest with
          | some rest2 => stripBlockComments rest2
          | none => c :: d :: rest
        else c :: stripBlockComments (d :: rest) := by
  match cs with
  | [] => simp [stripBlockComments, sbAux]
  | [c] => simp [stripBlockComments, sbAux]
  | c :: d :: rest =>
    show sbAux (rest.length + 1 + 1) (c :: d :: rest) = _
    simp only [sbAux]
    by_cases hcd : c = '/' ∧ d = '*'
    · simp only [if_pos hcd]
      cases hac : afterCloseQ rest with
      | none => rfl
      | some rest2 =>
        have hlen := afterCloseQ_length rest rest2 hac
        exact sbAux_fuel (rest.length + 1) rest2 (rest.length + 1) (by omega) (by omega)
    · simp only [if_neg hcd]
      rw [sbAux_fuel (rest.length + 1) (d :: rest) (rest.length + 1) (by simp) (by simp)]

/-- The three list shapes of `stripBlockComments_eq`, as separate
equations convenient for rewriting. -/
theorem stripBlockComments_nil : stripBlockComments [] = [] := rfl

/-- Singleton texts have no comment to strip. -/
theorem stripBlockComments_single (c : Char) : stripBlockComments [c] = [c] := rfl

/-- Cons-step of the block strip when no comment opens here. -/
theorem stripBlockComments_cons (c d : Char) (rest : List Char)
    (h : ¬(c = '/' ∧ d = '*')) :
    stripBlockComments (c :: d :: rest) = c :: stripBlockComments (d :: rest) := by
  rw [stripBlockComments_eq]
  simp only [if_neg h]

/-- Cons-step of the block strip at a closed comment opener. -/
theorem stripBlockComments_open (rest rest2 : List Char)
    (h : afterCloseQ rest = some rest2) :
    stripBlockComments ('/' :: '*' :: rest) = stripBlockComments rest2 := by
  rw [stripBlockComments_eq]
  simp [h]

/-- Cons-step of the block strip at an unclosed comment opener. -/
theorem stripBlockComments_openNone (rest : List Char)
    (h : afterCloseQ rest = none) :
    stripBlockComments ('/' :: '*' :: rest) = '/' :: '*' :: rest := by
  rw [stripBlockComments_eq]
  simp [h]

/-! ### The instrumented block scanner agrees with the strip -/

/-- The recorded span plus remainder reassemble the input. -/
theorem spanCloseQ_decomp : ∀ cs mid r, spanCloseQ cs = some (mid, r) →
    cs = mid ++ '*' :: '/' :: r := by
  intro cs
  induction cs using spanCloseQ.induct with
  | case1 => intro mid r h; simp [spanCloseQ] at h
  | case2 => intro mid r h; simp [spanCloseQ] at h
  | case3 c d rest hcd =>
    intro mid r h
    simp [spanCloseQ, hcd] at h
    obtain ⟨h1, h2⟩ := h
    subst h1
    subst h2
    rw [hcd.1, hcd.2]
    simp
  | case4 c d rest hcd mid0 r0 heq ih =>
    intro mid r h
    simp only [spanCloseQ, if_neg hcd, heq] at h
    simp at h
    obtain ⟨h1, h2⟩ := h
    subst h1
    subst h2
    have := ih mid0 r0 heq
    simp [this]
  | case5 c d rest hcd heq ih =>
    intro mid r h
    simp only [spanCloseQ, if_neg hcd, heq] at h
    exact absurd h (by simp)

/-- When the split finds a close, so does the plain search, with the same
remainder. -/
theorem spanCloseQ_some_after : ∀ cs mid r, spanCloseQ cs = some (mid, r) →
    afterCloseQ cs = some r := by
  intro cs
  induction cs using spanCloseQ.induct with
  | case1 => intro mid r h; simp [spanCloseQ] at h
  | case2 => intro mid r h; simp [spanCloseQ] at h
  | case3 c d rest hcd =>
    intro mid r h
    simp [spanCloseQ, hcd] at h
    simp [afterCloseQ, hcd, h.2]
  | case4 c d rest hcd mid0 r0 heq ih =>
    intro mid r h
    simp only [spanCloseQ, if_neg hcd, heq] at h
    simp at h
    simp only [afterCloseQ, if_neg hcd]
    exact h.2 ▸ ih mid0 r0 heq
  | case5 c d rest hcd heq ih =>
    intro mid r h
    simp only [spanCloseQ, if_neg hcd, heq] at h
    exact absurd h (by simp)

/-- When the split finds no close, neither does the plain search. -/
theorem spanCloseQ_none_after : ∀ cs, spanCloseQ cs = none →
    afterCloseQ cs = none := by
  intro cs
  induction cs using spanCloseQ.induct with
  | case1 => intro _; rfl
  | case2 => intro _; rfl
  | case3 c d rest hcd => intro h; simp [spanCloseQ, hcd] at h
  | case4 c d rest hcd mid0 r0 heq ih =>
    intro h
    simp only [spanCloseQ, if_neg hcd, heq] at h
    exact absurd h (by simp)
  | case5 c d rest hcd heq ih =>
    intro h
    simp only [afterCloseQ, if_neg hcd]
    exact ih heq

/-- The instrumented scanner computes the strip, accounts for every newline
(those kept plus those inside removed spans), and every removed span is a
delimited block comment. -/
theorem sbSplit_spec : ∀ n cs f, cs.length ≤ n → cs.length ≤ f →
    (sbSplitAux f cs).1 = stripBlockComments cs ∧
    (sbSplitAux f cs).1.count '\n' +
      ((sbSplitAux f cs).2.map (fun s => s.count '\n')).sum = cs.count '\n' ∧
    (∀ s ∈ (sbSplitAux f cs).2, ∃ mid, s = '/' :: '*' :: (mid ++ ['*', '/'])) := by
  intro n
  induction n with
  | zero =>
    intro cs f hn _
    have : cs = [] := List.length_eq_zero.mp (Nat.le_zero.mp hn)
    subst this
    cases f <;> simp [sbSplitAux, stripBlockComments, sbAux]
  | succ n ih =>
    intro cs f hn hf
    match cs, f with
    | [], f => cases f <;> simp [sbSplitAux, stripBlockComments, sbAux]
    | [c], f => cases f <;> simp [sbSplitAux, stripBlockComments, sbAux]
    | c :: d :: rest, 0 => simp at hf
    | c :: d :: rest, f + 1 =>
      simp only [List.length_cons] at hn hf
      by_cases hcd : c = '/' ∧ d = '*'
      · cases hs : spanCloseQ rest with
        | some p =>
          obtain ⟨mid, rest2⟩ := p
          have hdec := spanCloseQ_decomp rest mid rest2 hs
          have hafter := spanCloseQ_some_after rest mid rest2 hs
          have hlen : mid.length + 2 + rest2.length = rest.length := by
            rw [hdec]; simp; omega
          have hrec := ih rest2 f (by omega) (by omega)
          simp only [sbSplitAux, if_pos hcd, hs]
          refine ⟨?_, ?_, ?_⟩
          · rw [hcd.1, hcd.2, stripBlockComments_open rest rest2 hafter]
            exact hrec.1
          · have hc1 : (c :: d :: rest).count '\n' = mid.count '\n' + rest2.count '\n' := by
              rw [hdec, hcd.1, hcd.2]
              simp [List.count_cons, List.count_append]
            have hc2 : (c :: d :: (mid ++ ['*', '/'])).count '\n' = mid.count '\n' := by
              rw [hcd.1, hcd.2]
              simp [List.count_cons, List.count_append]
            simp only [List.map_cons, List.sum_cons, hc2, hc1]
            have := hrec.2.1
            omega
          · intro s hsmem
            simp only [List.mem_cons] at hsmem
            cases hsmem with
            | inl h => exact ⟨mid, by rw [h, hcd.1, hcd.2]⟩
            | inr h => exact hrec.2.2 s h
        | none =>
          have hafter := spanCloseQ_none_after rest hs
          simp only [sbSplitAux, if_pos hcd, hs]
          refine ⟨?_, by simp, by simp⟩
          rw [hcd.1, hcd.2, stripBlockComments_openNone rest hafter]
      · have hrec := ih (d :: rest) f (by simp only [List.length_cons]; omega)
          (by simp only [List.length_cons]; omega)
        simp only [sbSplitAux, if_neg hcd]
        refine ⟨?_, ?_, hrec.2.2⟩
        · rw [stripBlockComments_cons c d rest hcd]
          rw [hrec.1]
        · have hthis := hrec.2.1
          simp only [List.count_cons] at hthis ⊢
          omega

/-! ### Line-comment strip: newline preservation and completeness -/

/-- A character the skipping state drops is not a newline. -/
theorem not_lineTerm_ne_nl {c : Char} (h : ¬isLineTerm c = true) : c ≠ '\n' := by
  intro hc
  subst hc
  simp [isLineTerm] at h

/-- Line-comment stripping removes no newline: the regex `.` never matches a
line terminator, so every newline of the input survives (in both states). -/
theorem slCount : ∀ n cs, cs.length ≤ n →
    (slNorm cs).count '\n' = cs.count '\n' ∧
    (slSkip cs).count '\n' = cs.count '\n' := by
  intro n
  induction n with
  | zero =>
    intro cs hlen
    have : cs = [] := List.length_eq_zero.mp (Nat.le_zero.mp hlen)
    subst this
    simp [slNorm, slSkip]
  | succ n ih =>
    intro cs hlen
    constructor
    · match cs with
      | [] => simp [slNorm]
      | [c] => simp [slNorm]
      | c :: d :: rest =>
        simp only [List.length_cons] at hlen
        rw [slNorm]
        by_cases hcd : c = '/' ∧ d = '/'
        · simp only [if_pos hcd]
          have h1 := (ih rest (by omega)).2
          rw [h1, hcd.1, hcd.2]
          simp [List.count_cons]
        · simp only [if_neg hcd]
          have h1 := (ih (d :: rest) (by simp only [List.length_cons]; omega)).1
          simp [List.count_cons, h1]
    · match cs with
      | [] => simp [slSkip]
      | c :: rest =>
        simp only [List.length_cons] at hlen
        rw [slSkip]
        by_cases hterm : isLineTerm c = true
        · simp only [if_pos hterm]
          have h1 := (ih rest (by omega)).1
          simp [List.count_cons, h1]
        · simp only [if_neg hterm]
          have h1 := (ih rest (by omega)).2
          have hc := not_lineTerm_ne_nl hterm
          simp [List.count_cons, h1, hc]

/-- The skipping state's output, when non-empty, starts with a terminator. -/
theorem slSkip_head : ∀ cs h t, slSkip cs = h :: t → isLineTerm h = true := by
  intro cs
  induction cs with
  | nil => intro h t hec; simp [slSkip] at hec
  | cons c rest ih =>
    intro h t hec
    rw [slSkip] at hec
    by_cases hterm : isLineTerm c = true
    · rw [if_pos hterm] at hec
      cases hec
      exact hterm
    · rw [if_neg hterm] at hec
      exact ih h t hec

/-- The normal state's output, when non-empty, starts with the input's first
character or with a line terminator (when a comment opened immediately). -/
theorem slNorm_head : ∀ c r h t, slNorm (c :: r) = h :: t →
    h = c ∨ isLineTerm h = true := by
  intro c r h t hec
  match r with
  | [] =>
    rw [slNorm] at hec
    cases hec
    exact Or.inl rfl
  | d :: rest =>
    rw [slNorm] at hec
    by_cases hcd : c = '/' ∧ d = '/'
    · rw [if_pos hcd] at hec
      exact Or.inr (slSkip_head rest h t hec)
    · rw [if_neg hcd] at hec
      cases hec
      exact Or.inl rfl

/-- Line-comment stripping is complete: its output never contains two
adjacent slashes, in either state. -/
theorem slNoDS : ∀ n cs, cs.length ≤ n →
    noLineCommentStart (slNorm cs) = true ∧
    noLineCommentStart (slSkip cs) = true := by
  intro n
  induction n with
  | zero =>
    intro cs hlen
    have : cs = [] := List.length_eq_zero.mp (Nat.le_zero.mp hlen)
    subst this
    simp [slNorm, slSkip, noLineCommentStart]
  | succ n ih =>
    intro cs hlen
    constructor
    · match cs with
      | [] => simp [slNorm, noLineCommentStart]
      | [c] => simp [slNorm, noLineCommentStart]
      | c :: d :: rest =>
        simp only [List.length_cons] at hlen
        rw [slNorm]
        by_cases hcd : c = '/' ∧ d = '/'
        · simp only [if_pos hcd]
          exact (ih rest (by omega)).2
        · simp only [if_neg hcd]
          cases hout : slNorm (d :: rest) with
          | nil => simp [noLineCommentStart]
          | cons h t =>
            have hrest : noLineCommentStart (h :: t) = true := by
              rw [← hout]
              exact (ih (d :: rest) (by simp only [List.length_cons]; omega)).1
            have hadj : ¬(c = '/' ∧ h = '/') := by
              intro hch
              cases slNorm_head d rest h t hout with
              | inl hd =>
                exact hcd ⟨hch.1, by rw [← hd]; exact hch.2⟩
              | inr hterm =>
                rw [hch.2] at hterm
                simp [isLineTerm] at hterm
            simp [noLineCommentStart, hadj, hrest]
    · match cs with
      | [] => simp [slSkip, noLineCommentStart]
      | c :: rest =>
        simp only [List.length_cons] at hlen
        rw [slSkip]
        by_cases hterm : isLineTerm c = true
        · simp only [if_pos hterm]
          cases hout : slNorm rest with
          | nil => simp [noLineCommentStart]
          | cons h t =>
            have hrest : noLineCommentStart (h :: t) = true := by
              rw [← hout]
              exact (ih rest (by omega)).1
            have hadj : ¬(c = '/' ∧ h = '/') := by
              intro hch
              rw [hch.1] at hterm
              simp [isLineTerm] at hterm
            simp [noLineCommentStart, hadj, hrest]
        · simp only [if_neg hterm]
          exact (ih rest (by omega)).2

/-! ### Claim C4 -/

/-- C4: the Node script's trailing-comma strip (line 146) does **not**
remove a comma separated from the closing brace by whitespace — the regex
reads `,(s*[}\]])`, the backslash of `\s` having been lost, so the class is
the literal letter `s`.  On `{"a": 1, }` the Node strip is the identity
while the shell script's strip (line 105, with `\s*`) removes the comma as
the claim describes; the Node strip instead removes a comma before a run of
letters `s`. -/
theorem c4_trailingCommas_divergence :
    stripTrailingCommasJs ("\x7b\"a\": 1, \x7d".data) = "\x7b\"a\": 1, \x7d".data ∧
    stripTrailingCommasSh ("\x7b\"a\": 1, \x7d".data) = "\x7b\"a\": 1 \x7d".data ∧
    "\x7b\"a\": 1, \x7d".data ≠ "\x7b\"a\": 1 \x7d".data ∧
    stripTrailingCommasJs (",ss\x7d".data) = "ss\x7d".data := by
  exact ⟨by decide, by decide, by decide, by decide⟩

/-! ### Claim C5 -/

/-- C5: when the text left by comment and trailing-comma stripping is not
valid JSON, the patch step fails with the malformed-configuration error, and
no content is written to the configuration file; the failure propagates to
the catch handler (lines 408–411), which aborts the entire setup with exit
status 1. -/
theorem c5_malformed_rejection (t : List Char)
    (h : parseTop (stripAllJs t) = none) :
    patchRunJs t = PatchOutcome.malformedConfig ∧ patchWritesJs t = [] := by
  constructor
  · simp [patchRunJs, h]
  · simp [patchWritesJs, patchRunJs, h]

/-- The malformed-rejection theorem at the spec's example input, an
unterminated string (which stripping does not repair). -/
theorem c5_malformed_rejection_witness :
    patchRunJs ("\x7b\"a\": \"unterminated".data) = PatchOutcome.malformedConfig ∧
    patchWritesJs ("\x7b\"a\": \"unterminated".data) = [] :=
  c5_malformed_rejection ("\x7b\"a\": \"unterminated".data) rfl

/-! ### Claim C9 -/

/-- C9: clipboard publishing is best-effort and non-fatal.  Whenever
`copyToClipboard` reports failure — unsupported platform, no clipboard tool
on Linux, or a failing clipboard command — the setup does not abort: it
prints the next-steps command text and completes normally. -/
theorem c9_clipboard_nonfatal (env : ClipEnv) (name : List Char)
    (h : copyToClipboard env (nextCommandText name) = false) :
    (finishSetup env name).completed = true ∧
    (finishSetup env name).printedLines =
      ["Next steps:".data, "  cd ".data ++ name, "  npm run dev".data] := by
  rw [finishSetup, if_neg (by rw [h]; simp)]
  exact ⟨rfl, rfl⟩

/-- The clipboard theorem on an unsupported platform. -/
theorem c9_clipboard_nonfatal_witness :
    (finishSetup ⟨Platform.other, false, false, true⟩ "my-app".data).completed = true ∧
    (finishSetup ⟨Platform.other, false, false, true⟩ "my-app".data).printedLines =
      ["Next steps:".data, "  cd ".data ++ "my-app".data, "  npm run dev".data] :=
  c9_clipboard_nonfatal ⟨Platform.other, false, false, true⟩ "my-app".data rfl

/-! ### Claim C10 -/

/-- The uniform precheck claim fails for the shell entry point: its test at
line 53 is `[ -d ]`, so an existing plain file named like the project stops
the Node script but lets the shell script proceed to issue commands. -/
theorem c10_file_precheck_counterexample :
    setupMainJs ["node".data, "setup-react.js".data, "my-app".data]
      (fun n => if n = "my-app".data then some FsEntry.file else none) =
      ⟨some 1, [], []⟩ ∧
    (setupMainSh ["my-app".data]
      (fun n => if n = "my-app".data then some FsEntry.file else none)).exitCode
      = none ∧
    (setupMainSh ["my-app".data]
      (fun n => if n = "my-app".data then some FsEntry.file else none)).commands
      ≠ [] :=
  ⟨rfl, rfl, by decide⟩

/-- C10 (amended): with no project-name argument each entry point exits
with status 1 having issued no command and written no file; with an
existing filesystem entry under the project name the Node script
(`fs.existsSync`, any entry kind) exits with status 1 and no side effect,
while the shell script does so only when the entry is a directory
(`[ -d ]`). -/
theorem c10_precheck_failures (entry : List Char → Option FsEntry) :
    (∀ argv, argv.length < 3 → setupMainJs argv entry = ⟨some 1, [], []⟩) ∧
    (∀ a b name rest, existsSyncB entry name = true →
      setupMainJs (a :: b :: name :: rest) entry = ⟨some 1, [], []⟩) ∧
    setupMainSh [] entry = ⟨some 1, [], []⟩ ∧
    (∀ name rest, isDirB entry name = true →
      setupMainSh (name :: rest) entry = ⟨some 1, [], []⟩) := by
  refine ⟨?_, ?_, rfl, ?_⟩
  · intro argv hlen
    match argv, hlen with
    | [], _ => rfl
    | [_], _ => rfl
    | [_, _], _ => rfl
    | _ :: _ :: _ :: rest, hlen => simp only [List.length_cons] at hlen; omega
  · intro a b name rest hex
    unfold setupMainJs
    rw [if_neg (by simp only [List.length_cons]; omega)]
    simp only [hex]
    rfl
  · intro name rest hdir
    unfold setupMainSh
    simp only [hdir]
    rfl

/-- The amended precheck theorem at its failing inputs: a missing argument
for either entry point, an existing entry for the Node script and an
existing directory for the shell script. -/
theorem c10_precheck_failures_witness :
    setupMainJs ["node".data, "setup-react.js".data] (fun _ => none) =
      ⟨some 1, [], []⟩ ∧
    setupMainJs ["node".data, "setup-react.js".data, "my-app".data]
      (fun _ => some FsEntry.dir) = ⟨some 1, [], []⟩ ∧
    setupMainSh [] (fun _ => none) = ⟨some 1, [], []⟩ ∧
    setupMainSh ["my-app".data] (fun _ => some FsEntry.dir) =
      ⟨some 1, [], []⟩ :=
  ⟨(c10_precheck_failures (fun _ => none)).1 _ (by decide),
   (c10_precheck_failures (fun _ => some FsEntry.dir)).2.1 _ _ _ _ rfl,
   (c10_precheck_failures (fun _ => none)).2.2.1,
   (c10_precheck_failures (fun _ => some FsEntry.dir)).2.2.2 _ _ rfl⟩

/-! ### Object-assignment lemmas -/

/-- Looking up the key just set yields the new value. -/
theorem lookupKey_setKey_same (m : List (List Char × JsonValue))
    (k : List Char) (v : JsonValue) : lookupKey (setKey m k v) k = some v := by
  induction m with
  | nil => simp [setKey, lookupKey]
  | cons kv rest ih =>
    obtain ⟨k0, w⟩ := kv
    rw [setKey]
    by_cases hk : k0 = k
    · rw [if_pos hk, lookupKey, if_pos hk]
    · rw [if_neg hk, lookupKey, if_neg hk]
      exact ih

/-- Setting one key does not disturb the lookup of another. -/
theorem lookupKey_setKey_other (m : List (List Char × JsonValue))
    (k key : List Char) (v : JsonValue) (h : k ≠ key) :
    lookupKey (setKey m k v) key = lookupKey m key := by
  induction m with
  | nil => simp [setKey, lookupKey, h]
  | cons kv rest ih =>
    obtain ⟨k0, w⟩ := kv
    rw [setKey]
    by_cases hk : k0 = k
    · rw [if_pos hk, lookupKey, lookupKey]
      subst hk
      rw [if_neg h, if_neg h]
    · rw [if_neg hk, lookupKey, lookupKey]
      by_cases hq : k0 = key
      · rw [if_pos hq, if_pos hq]
      · rw [if_neg hq, if_neg hq]
        exact ih

/-- Overwriting a key twice keeps only the last write. -/
theorem setKey_setKey_same (m : List (List Char × JsonValue))
    (k : List Char) (v w : JsonValue) :
    setKey (setKey m k v) k w = setKey m k w := by
  induction m with
  | nil => simp [setKey]
  | cons kv rest ih =>
    obtain ⟨k0, u⟩ := kv
    rw [setKey]
    by_cases hk : k0 = k
    · rw [if_pos hk, setKey, if_pos hk, setKey, if_pos hk]
    · rw [if_neg hk, setKey, if_neg hk, setKey, if_neg hk, ih]

/-- Setting a key to the value it already has changes nothing. -/
theorem setKey_lookup_self (m : List (List Char × JsonValue))
    (k : List Char) (v : JsonValue) (h : lookupKey m k = some v) :
    setKey m k v = m := by
  induction m with
  | nil => simp [lookupKey] at h
  | cons kv rest ih =>
    obtain ⟨k0, w⟩ := kv
    rw [lookupKey] at h
    rw [setKey]
    by_cases hk : k0 = k
    · rw [if_pos hk] at h ⊢
      simp at h
      rw [h]
    · rw [if_neg hk] at h ⊢
      rw [ih h]


/-! ### Branch equations for the injection -/

/-- Injection when `compilerOptions` is absent: line 149 creates it and
lines 150–151 fill it. -/
theorem inject_obj_none (kvs : List (List Char × JsonValue))
    (hco : lookupKey kvs coKey = none) :
    injectPathAlias (JsonValue.obj kvs) =
      some (JsonValue.obj (setKey kvs coKey freshCO)) := by
  simp [injectPathAlias, hco]

/-- Injection when `compilerOptions` is falsy: line 149 replaces it by `{}`
and lines 150–151 fill it. -/
theorem inject_obj_falsy (kvs : List (List Char × JsonValue)) (v : JsonValue)
    (hco : lookupKey kvs coKey = some v) (hf : isFalsyJson v = true) :
    injectPathAlias (JsonValue.obj kvs) =
      some (JsonValue.obj (setKey kvs coKey freshCO)) := by
  simp [injectPathAlias, hco, hf]

/-- Injection when `compilerOptions` is an object: lines 150–151 overwrite
its `baseUrl` and `paths` members in place. -/
theorem inject_obj_obj (kvs m : List (List Char × JsonValue))
    (hco : lookupKey kvs coKey = some (JsonValue.obj m)) :
    injectPathAlias (JsonValue.obj kvs) =
      some (JsonValue.obj (setKey kvs coKey
        (JsonValue.obj (setKey (setKey m baseUrlKey (JsonValue.str ".".data))
          pathsKey pathsValue)))) := by
  simp [injectPathAlias, hco, isFalsyJson]

/-- Injection when `compilerOptions` is truthy but not an object: line 149
skips the reset and the assignments of lines 150–151 are observably inert
(silent sloppy-mode failure on primitives, expando properties invisible to
the serializer on arrays). -/
theorem inject_obj_inert (kvs : List (List Char × JsonValue)) (v : JsonValue)
    (hco : lookupKey kvs coKey = some v) (hf : isFalsyJson v = false)
    (hobj : isObjJson v = false) :
    injectPathAlias (JsonValue.obj kvs) = some (JsonValue.obj kvs) := by
  match v, hf, hobj with
  | JsonValue.bool b, hf, _ => simp [injectPathAlias, hco, hf]
  | JsonValue.num n, hf, _ => simp [injectPathAlias, hco, hf]
  | JsonValue.str s, hf, _ => simp [injectPathAlias, hco, hf]
  | JsonValue.arr xs, hf, _ => simp [injectPathAlias, hco, hf]

/-- Injection on an array document: the expando properties set by lines
149–151 are invisible to the serializer, so the document passes through. -/
theorem inject_arr (xs : List JsonValue) :
    injectPathAlias (JsonValue.arr xs) = some (JsonValue.arr xs) := rfl

/-! ### Claim C2 -/

/-- C2 fails as stated: on the document `{"compilerOptions": 5}` (which the
input text `{"compilerOptions": 5}` produces), the truthiness guard of line
149 skips the reset and the assignments of lines 150–151 silently fail on
the primitive, so the patched document still maps `compilerOptions` to `5`
and has no `compilerOptions.baseUrl` at all. -/
theorem c2_alias_overwrite_counterexample :
    patchDocJs ("\x7b\"compilerOptions\": 5\x7d".data) =
      some (JsonValue.obj [(coKey, JsonValue.num 5)]) ∧
    injectPathAlias (JsonValue.obj [(coKey, JsonValue.num 5)]) =
      some (JsonValue.obj [(coKey, JsonValue.num 5)]) ∧
    getPath (JsonValue.obj [(coKey, JsonValue.num 5)]) [coKey, baseUrlKey] =
      none :=
  ⟨rfl, rfl, rfl⟩

/-- C2 amended: for every input document that is a JSON object whose
pre-existing `compilerOptions` (if any) is falsy or an object, the patch
succeeds and the result has `compilerOptions.baseUrl = "."` and
`compilerOptions.paths = {"@/*": ["./src/*"]}` exactly; a truthy non-object
`compilerOptions` is left unchanged instead. -/
theorem c2_alias_overwrite (kvs : List (List Char × JsonValue))
    (h : coPatchable (lookupKey kvs coKey) = true) :
    ∃ d2, injectPathAlias (JsonValue.obj kvs) = some d2 ∧
      getPath d2 [coKey, baseUrlKey] = some (JsonValue.str ".".data) ∧
      getPath d2 [coKey, pathsKey] = some pathsValue := by
  cases hco : lookupKey kvs coKey with
  | none =>
    refine ⟨_, inject_obj_none kvs hco, ?_, ?_⟩
    · simp only [getPath, lookupKey_setKey_same]
      rfl
    · simp only [getPath, lookupKey_setKey_same]
      rfl
  | some v =>
    rw [hco] at h
    simp only [coPatchable, Bool.or_eq_true] at h
    by_cases hf : isFalsyJson v = true
    · refine ⟨_, inject_obj_falsy kvs v hco hf, ?_, ?_⟩
      · simp only [getPath, lookupKey_setKey_same]
        rfl
      · simp only [getPath, lookupKey_setKey_same]
        rfl
    · have hobj : isObjJson v = true := h.resolve_left hf
      match v, hobj with
      | JsonValue.obj m, _ =>
        refine ⟨_, inject_obj_obj kvs m hco, ?_, ?_⟩
        · simp only [getPath, lookupKey_setKey_same,
            lookupKey_setKey_other _ pathsKey baseUrlKey _ (by decide)]
        · simp only [getPath, lookupKey_setKey_same]
          rfl

/-- The amended alias-overwrite theorem on a document with an object-valued
`compilerOptions` carrying an unrelated member. -/
theorem c2_alias_overwrite_witness :
    coPatchable (lookupKey
      [(coKey, JsonValue.obj [("target".data, JsonValue.str "ES2020".data)])]
      coKey) = true ∧
    ∃ d2, injectPathAlias (JsonValue.obj
        [(coKey, JsonValue.obj [("target".data, JsonValue.str "ES2020".data)])]) =
        some d2 ∧
      getPath d2 [coKey, baseUrlKey] = some (JsonValue.str ".".data) ∧
      getPath d2 [coKey, pathsKey] = some pathsValue :=
  ⟨rfl, c2_alias_overwrite _ rfl⟩

/-! ### Inject idempotence (supports claim C1) -/

/-- The freshly created `compilerOptions` object re-patches to itself. -/
theorem freshCO_repatch :
    setKey (setKey [(baseUrlKey, JsonValue.str ".".data), (pathsKey, pathsValue)]
      baseUrlKey (JsonValue.str ".".data)) pathsKey pathsValue =
    [(baseUrlKey, JsonValue.str ".".data), (pathsKey, pathsValue)] := rfl

/-- Injecting twice equals injecting once: the second pass finds a truthy
object-valued `compilerOptions` and rewrites `baseUrl` and `paths` to the
values they already hold. -/
theorem injectPathAlias_idem (d d2 : JsonValue)
    (h : injectPathAlias d = some d2) : injectPathAlias d2 = some d2 := by
  match d with
  | JsonValue.arr xs =>
    rw [inject_arr] at h
    cases h
    exact inject_arr xs
  | JsonValue.null => exact Option.noConfusion h
  | JsonValue.bool b => exact Option.noConfusion h
  | JsonValue.num n => exact Option.noConfusion h
  | JsonValue.str s => exact Option.noConfusion h
  | JsonValue.obj kvs =>
    have hfresh : ∀ kvs2, lookupKey kvs2 coKey = some freshCO →
        injectPathAlias (JsonValue.obj kvs2) =
          some (JsonValue.obj (setKey kvs2 coKey freshCO)) := by
      intro kvs2 hco2
      rw [inject_obj_obj kvs2 _ hco2]
      rw [freshCO_repatch]
      rfl
    cases hco : lookupKey kvs coKey with
    | none =>
      rw [inject_obj_none kvs hco] at h
      cases h
      rw [hfresh _ (lookupKey_setKey_same kvs coKey freshCO),
        setKey_setKey_same]
    | some v =>
      by_cases hf : isFalsyJson v = true
      · rw [inject_obj_falsy kvs v hco hf] at h
        cases h
        rw [hfresh _ (lookupKey_setKey_same kvs coKey freshCO),
          setKey_setKey_same]
      · by_cases hobj : isObjJson v = true
        · match v, hobj with
          | JsonValue.obj m, _ =>
            rw [inject_obj_obj kvs m hco] at h
            cases h
            rw [inject_obj_obj _ _ (lookupKey_setKey_same kvs coKey _)]
            have hbu : lookupKey (setKey (setKey m baseUrlKey
                (JsonValue.str ".".data)) pathsKey pathsValue) baseUrlKey =
                some (JsonValue.str ".".data) := by
              rw [lookupKey_setKey_other _ pathsKey baseUrlKey _ (by decide),
                lookupKey_setKey_same]
            rw [setKey_lookup_self _ _ _ hbu, setKey_lookup_self _ _ _
              (lookupKey_setKey_same _ pathsKey pathsValue), setKey_setKey_same]
        · rw [inject_obj_inert kvs v hco (by simp [hf])
            (by simp [hobj])] at h
          cases h
          exact inject_obj_inert kvs v hco (by simp [hf]) (by simp [hobj])

/-! ### Claim C3 -/

/-- C3: the patch alters no key path other than `compilerOptions.baseUrl`
and `compilerOptions.paths`.  For every document on which the patch
succeeds and every key path overlapping neither of the two target paths
(i.e. neither lying on the way to them nor extending them), the patched
document yields the same value at that path as the input. -/
theorem c3_frame (d d2 : JsonValue) (K : List (List Char))
    (hinj : injectPathAlias d = some d2)
    (h1 : pathsOverlap K [coKey, baseUrlKey] = false)
    (h2 : pathsOverlap K [coKey, pathsKey] = false) :
    getPath d2 K = getPath d K := by
  match K with
  | [] => simp [pathsOverlap] at h1
  | k :: ks =>
    by_cases hk : k = coKey
    · subst hk
      have h1s : pathsOverlap ks [baseUrlKey] = false := by
        simp [pathsOverlap] at h1
        exact h1
      have h2s : pathsOverlap ks [pathsKey] = false := by
        simp [pathsOverlap] at h2
        exact h2
      match ks with
      | [] => simp [pathsOverlap] at h1s
      | k2 :: ks2 =>
        have hbu : k2 ≠ baseUrlKey := by
          intro hc
          rw [hc] at h1s
          simp [pathsOverlap] at h1s
          cases ks2 <;> simp [pathsOverlap] at h1s
        have hpa : k2 ≠ pathsKey := by
          intro hc
          rw [hc] at h2s
          simp [pathsOverlap] at h2s
          cases ks2 <;> simp [pathsOverlap] at h2s
        match d with
        | JsonValue.arr xs =>
          rw [inject_arr] at hinj
          cases hinj
          rfl
        | JsonValue.null => exact Option.noConfusion hinj
        | JsonValue.bool b => exact Option.noConfusion hinj
        | JsonValue.num n => exact Option.noConfusion hinj
        | JsonValue.str s => exact Option.noConfusion hinj
        | JsonValue.obj kvs =>
          cases hco : lookupKey kvs coKey with
          | none =>
            rw [inject_obj_none kvs hco] at hinj
            cases hinj
            simp only [getPath, lookupKey_setKey_same, hco]
            show (match lookupKey [(baseUrlKey, JsonValue.str ".".data),
              (pathsKey, pathsValue)] k2 with
              | some v => getPath v ks2
              | none => none) = none
            rw [lookupKey, if_neg (fun hc => hbu hc.symm),
              lookupKey, if_neg (fun hc => hpa hc.symm), lookupKey]
          | some v =>
            by_cases hf : isFalsyJson v = true
            · rw [inject_obj_falsy kvs v hco hf] at hinj
              cases hinj
              simp only [getPath, lookupKey_setKey_same, hco]
              have hlhs : (match lookupKey [(baseUrlKey, JsonValue.str ".".data),
                  (pathsKey, pathsValue)] k2 with
                  | some w => getPath w ks2
                  | none => none) = none := by
                rw [lookupKey, if_neg (fun hc => hbu hc.symm),
                  lookupKey, if_neg (fun hc => hpa hc.symm), lookupKey]
              rw [hlhs]
              match v, hf with
              | JsonValue.null, _ => rfl
              | JsonValue.bool b, _ => rfl
              | JsonValue.num n, _ => rfl
              | JsonValue.str s, _ => rfl
            · by_cases hobj : isObjJson v = true
              · match v, hobj with
                | JsonValue.obj m, _ =>
                  rw [inject_obj_obj kvs m hco] at hinj
                  cases hinj
                  simp only [getPath, lookupKey_setKey_same, hco]
                  rw [lookupKey_setKey_other _ pathsKey k2 _ (fun hc => hpa hc.symm),
                    lookupKey_setKey_other _ baseUrlKey k2 _ (fun hc => hbu hc.symm)]
              · rw [inject_obj_inert kvs v hco (by simp [hf]) (by simp [hobj])]
                  at hinj
                cases hinj
                rfl
    · match d with
      | JsonValue.arr xs =>
        rw [inject_arr] at hinj
        cases hinj
        rfl
      | JsonValue.null => exact Option.noConfusion hinj
      | JsonValue.bool b => exact Option.noConfusion hinj
      | JsonValue.num n => exact Option.noConfusion hinj
      | JsonValue.str s => exact Option.noConfusion hinj
      | JsonValue.obj kvs =>
        cases hco : lookupKey kvs coKey with
        | none =>
          rw [inject_obj_none kvs hco] at hinj
          cases hinj
          simp only [getPath]
          rw [lookupKey_setKey_other _ coKey k _ (fun hc => hk hc.symm)]
        | some v =>
          by_cases hf : isFalsyJson v = true
          · rw [inject_obj_falsy kvs v hco hf] at hinj
            cases hinj
            simp only [getPath]
            rw [lookupKey_setKey_other _ coKey k _ (fun hc => hk hc.symm)]
          · by_cases hobj : isObjJson v = true
            · match v, hobj with
              | JsonValue.obj m, _ =>
                rw [inject_obj_obj kvs m hco] at hinj
                cases hinj
                simp only [getPath]
                rw [lookupKey_setKey_other _ coKey k _ (fun hc => hk hc.symm)]
            · rw [inject_obj_inert kvs v hco (by simp [hf]) (by simp [hobj])]
                at hinj
              cases hinj
              rfl

/-- The frame theorem on a realistic document: the unrelated top-level key
`files` and the nested key `compilerOptions.target` are untouched by the
patch. -/
theorem c3_frame_witness :
    injectPathAlias (JsonValue.obj
      [("files".data, JsonValue.arr []),
       (coKey, JsonValue.obj [("target".data, JsonValue.str "ES2020".data)])]) =
      some (JsonValue.obj
        [("files".data, JsonValue.arr []),
         (coKey, JsonValue.obj [("target".data, JsonValue.str "ES2020".data),
           (baseUrlKey, JsonValue.str ".".data), (pathsKey, pathsValue)])]) ∧
    getPath (JsonValue.obj
        [("files".data, JsonValue.arr []),
         (coKey, JsonValue.obj [("target".data, JsonValue.str "ES2020".data),
           (baseUrlKey, JsonValue.str ".".data), (pathsKey, pathsValue)])])
      ["files".data] =
      getPath (JsonValue.obj
        [("files".data, JsonValue.arr []),
         (coKey, JsonValue.obj [("target".data, JsonValue.str "ES2020".data)])])
      ["files".data] ∧
    getPath (JsonValue.obj
        [("files".data, JsonValue.arr []),
         (coKey, JsonValue.obj [("target".data, JsonValue.str "ES2020".data),
           (baseUrlKey, JsonValue.str ".".data), (pathsKey, pathsValue)])])
      [coKey, "target".data] =
      getPath (JsonValue.obj
        [("files".data, JsonValue.arr []),
         (coKey, JsonValue.obj [("target".data, JsonValue.str "ES2020".data)])])
      [coKey, "target".data] :=
  ⟨rfl,
   c3_frame _ _ ["files".data] rfl (by decide) (by decide),
   c3_frame _ _ [coKey, "target".data] rfl (by decide) (by decide)⟩

/-! ### Claim C8 -/

/-- C8 fails as stated: the two entry points are not equivalent and neither
refines the other.  On `{"a": ",s}"}` both pipelines succeed but produce
different texts (the Node regex, whose class is the literal letter `s`,
deletes the comma inside the string value; the shell regex does not), and
on `{"a": 1,\n}` the shell pipeline succeeds while the Node pipeline fails
to parse (the comma before whitespace is not removed). -/
theorem c8_pipelines_diverge :
    (patchTextJs ("\x7b\"a\": \",s\x7d\"\x7d".data)).isSome = true ∧
    (patchTextSh ("\x7b\"a\": \",s\x7d\"\x7d".data)).isSome = true ∧
    patchTextJs ("\x7b\"a\": \",s\x7d\"\x7d".data) ≠
      patchTextSh ("\x7b\"a\": \",s\x7d\"\x7d".data) ∧
    patchTextJs ("\x7b\"a\": 1,\n\x7d".data) = none ∧
    (patchTextSh ("\x7b\"a\": 1,\n\x7d".data)).isSome = true :=
  ⟨rfl, rfl, by decide, rfl, rfl⟩

/-- C8 amended: the two pipelines share the comment stripping, the parser,
the injection and the serializer, and differ only in the trailing-comma
replace; on every input where the two comma strips agree on the
comment-stripped text, the pipelines produce identical output. -/
theorem c8_pipelines_agree (t : List Char)
    (h : stripTrailingCommasJs (stripComments t) =
      stripTrailingCommasSh (stripComments t)) :
    patchTextJs t = patchTextSh t := by
  unfold patchTextJs patchTextSh patchDocJs patchDocSh stripAllJs stripAllSh
  rw [h]

/-- The agreement theorem at the spec's example input (its trailing comma
directly precedes the closing brace, where both strips remove it). -/
theorem c8_pipelines_agree_witness :
    stripTrailingCommasJs (stripComments
      ("\x7b\"compilerOptions\": \x7b\"target\": \"ES2020\"\x7d /* trailing */,\x7d".data)) =
    stripTrailingCommasSh (stripComments
      ("\x7b\"compilerOptions\": \x7b\"target\": \"ES2020\"\x7d /* trailing */,\x7d".data)) ∧
    patchTextJs
      ("\x7b\"compilerOptions\": \x7b\"target\": \"ES2020\"\x7d /* trailing */,\x7d".data) =
    patchTextSh
      ("\x7b\"compilerOptions\": \x7b\"target\": \"ES2020\"\x7d /* trailing */,\x7d".data) :=
  ⟨by decide, c8_pipelines_agree _ (by decide)⟩

/-! ### Decimal number lemmas -/

/-- The digit character of `d < 10` is a digit and carries code `48 + d`. -/
theorem digitChar_toNat (d : Nat) (h : d < 10) :
    (digitChar d).toNat = 48 + d ∧ isDigitChar (digitChar d) = true := by
  interval_cases d <;> exact ⟨rfl, rfl⟩

/-- The digit character of `d < 10` is `'0'` only for `d = 0`. -/
theorem digitChar_zero (d : Nat) (h : d < 10) : digitChar d = '0' ↔ d = 0 := by
  interval_cases d <;> simp [digitChar]

/-- A digit character is not a structural character of the JSON grammar nor
whitespace nor a letter starting a keyword. -/
theorem digitChar_not_special (c : Char) (h : isDigitChar c = true) :
    isJsonWs c = false ∧ c ≠ 'n' ∧ c ≠ 't' ∧ c ≠ 'f' ∧ c ≠ '"' ∧
    c ≠ '[' ∧ c ≠ '\x7b' ∧ c ≠ ']' ∧ c ≠ '\x7d' ∧ c ≠ ',' ∧ c ≠ '-' ∧
    c ≠ ':' := by
  simp only [isDigitChar, decide_eq_true_eq] at h
  have hlo : 48 ≤ c.toNat := h.1
  have hhi : c.toNat ≤ 57 := h.2
  refine ⟨?_, ?_, ?_, ?_, ?_, ?_, ?_, ?_, ?_, ?_, ?_, ?_⟩
  · simp only [isJsonWs, decide_eq_false_iff_not]
    intro hc
    rcases hc with hc | hc | hc | hc <;> (subst hc; revert hlo hhi; decide)
  all_goals
    intro hc
    subst hc
    revert hlo hhi
    decide

/-- Sufficient fuel makes the executable digits agree with the
specification function. -/
theorem natCharsAux_spec : ∀ f n acc, n < 10 ^ f → 0 < f →
    natCharsAux f n acc = natDigitsL n ++ acc := by
  intro f
  induction f with
  | zero => intro n acc _ hf; omega
  | succ f ih =>
    intro n acc h _
    rw [natCharsAux]
    by_cases hn : n < 10
    · rw [if_pos hn, natDigitsL, if_pos hn]
      simp
    · rw [if_neg hn, natDigitsL, if_neg hn]
      have hf : 0 < f := by
        by_contra hf0
        have : f = 0 := by omega
        subst this
        simp at h
        omega
      rw [ih (n / 10) (digitChar (n % 10) :: acc)
        (Nat.div_lt_of_lt_mul (by rw [pow_succ] at h; omega)) hf]
      simp

/-- The executable decimal digits equal the specification digits. -/
theorem natChars_eq (n : Nat) : natChars n = natDigitsL n := by
  have h1 : n < 10 ^ n := Nat.lt_pow_self (by omega) n
  have h2 : (10 : Nat) ^ n ≤ 10 ^ (n + 1) :=
    Nat.pow_le_pow_right (by omega) (by omega)
  rw [natChars, natCharsAux_spec (n + 1) n [] (by omega) (by omega),
    List.append_nil]

/-- The specification digits are never empty. -/
theorem natDigitsL_ne_nil (n : Nat) : natDigitsL n ≠ [] := by
  rw [natDigitsL]
  by_cases hn : n < 10
  · rw [if_pos hn]; simp
  · rw [if_neg hn]; simp

/-- The decimal digits of a number are digits, and the leading one is zero
only for the number zero. -/
theorem natDigitsL_digits (n : Nat) :
    (∀ c ∈ natDigitsL n, isDigitChar c = true) ∧
    ∀ t, natDigitsL n = '0' :: t → n = 0 := by
  induction n using natDigitsL.induct with
  | case1 n hn =>
    rw [natDigitsL, if_pos hn]
    refine ⟨by simp [(digitChar_toNat n hn).2], ?_⟩
    intro t het
    simp at het
    exact (digitChar_zero n hn).mp het.1
  | case2 n hn ih =>
    rw [natDigitsL, if_neg hn]
    obtain ⟨ihd, ihz⟩ := ih
    constructor
    · intro c hc
      rw [List.mem_append] at hc
      cases hc with
      | inl hc => exact ihd c hc
      | inr hc =>
        simp at hc
        rw [hc]
        exact (digitChar_toNat (n % 10) (Nat.mod_lt n (by omega))).2
    · intro t het
      match hsh : natDigitsL (n / 10) with
      | [] => exact absurd hsh (natDigitsL_ne_nil _)
      | c :: t2 =>
        rw [hsh] at het
        simp at het
        have hz := ihz t2 (by rw [hsh, het.1])
        omega

/-- Reading the specification digits back gives the number. -/
theorem digitsToNat_natDigitsL (n : Nat) : digitsToNat (natDigitsL n) = n := by
  induction n using natDigitsL.induct with
  | case1 n hn =>
    rw [natDigitsL, if_pos hn, digitsToNat]
    simp [(digitChar_toNat n hn).1]
  | case2 n hn ih =>
    rw [natDigitsL, if_neg hn, digitsToNat, List.foldl_append]
    rw [digitsToNat] at ih
    rw [ih]
    simp [(digitChar_toNat (n % 10) (Nat.mod_lt n (by omega))).1]
    omega

/-- A number delimiter stops the digit run immediately. -/
theorem takeDigits_stop (cs : List Char) (h : numDelim cs = true) :
    takeDigits cs = ([], cs) := by
  match cs with
  | [] => rfl
  | c :: r =>
    rw [numDelim] at h
    simp at h
    rw [takeDigits, if_neg (by rw [h]; simp)]

/-- The digit run of digits followed by a delimiter is exactly the digits. -/
theorem takeDigits_append (ds rest : List Char)
    (hd : ∀ c ∈ ds, isDigitChar c = true) (hr : numDelim rest = true) :
    takeDigits (ds ++ rest) = (ds, rest) := by
  induction ds with
  | nil => exact takeDigits_stop rest hr
  | cons c t ih =>
    rw [List.cons_append, takeDigits,
      if_pos (hd c (by simp)), ih (fun x hx => hd x (by simp [hx]))]

/-- The natural-number token parse inverts the decimal printer. -/
theorem parseNatTok_natChars (n : Nat) (rest : List Char)
    (hr : numDelim rest = true) :
    parseNatTok (natChars n ++ rest) = some (n, rest) := by
  rw [natChars_eq]
  by_cases hn : n < 10
  · rw [natDigitsL, if_pos hn, List.cons_append, List.nil_append]
    by_cases h0 : n = 0
    · subst h0
      rw [show digitChar 0 = '0' from rfl]
      match rest, hr with
      | [], _ => rfl
      | d :: r, hr =>
        rw [numDelim] at hr
        simp at hr
        simp [parseNatTok, hr]
    · simp only [parseNatTok,
        if_neg (fun hc => h0 ((digitChar_zero n hn).mp hc)),
        if_pos (digitChar_toNat n hn).2, takeDigits_stop rest hr]
      rw [digitsToNat]
      simp [(digitChar_toNat n hn).1]
  · match hsh : natDigitsL n with
    | [] => exact absurd hsh (natDigitsL_ne_nil n)
    | c :: t =>
      obtain ⟨hdig, hzero⟩ := natDigitsL_digits n
      have hcd : isDigitChar c = true := hdig c (by rw [hsh]; simp)
      have hc0 : c ≠ '0' := by
        intro hc
        subst hc
        have := hzero t hsh
        omega
      rw [List.cons_append]
      simp only [parseNatTok, if_neg hc0, if_pos hcd,
        takeDigits_append t rest (fun x hx => hdig x (by rw [hsh]; simp [hx])) hr]
      rw [show (c :: t) = natDigitsL n from hsh.symm, digitsToNat_natDigitsL]

/-- The integer token parse inverts the integer printer. -/
theorem parseIntTok_intChars (n : Int) (rest : List Char)
    (hr : numDelim rest = true) :
    parseIntTok (intChars n ++ rest) = some (n, rest) := by
  rw [intChars]
  by_cases hneg : n < 0
  · rw [if_pos hneg, List.cons_append]
    simp only [parseIntTok, if_pos rfl, parseNatTok_natChars n.natAbs rest hr]
    show some (-(n.natAbs : Int), rest) = some (n, rest)
    have : -((n.natAbs : Nat) : Int) = n := by omega
    rw [this]
  · rw [if_neg hneg]
    match hsh : natChars n.natAbs with
    | [] =>
      rw [natChars_eq] at hsh
      exact absurd hsh (natDigitsL_ne_nil _)
    | c :: t =>
      have hcd : isDigitChar c = true := by
        rw [natChars_eq] at hsh
        exact (natDigitsL_digits n.natAbs).1 c (by rw [hsh]; simp)
      have hcm : c ≠ '-' := (digitChar_not_special c hcd).2.2.2.2.2.2.2.2.2.2.1
      have key := parseNatTok_natChars n.natAbs rest hr
      rw [hsh] at key
      simp only [List.cons_append] at key
      have hval : ((n.natAbs : Nat) : Int) = n := by omega
      rw [List.cons_append]
      generalize hw : t ++ rest = w at key ⊢
      simp only [parseIntTok, if_neg hcm, key, hval]

/-! ### String escape lemmas -/

/-- Hexadecimal digits print and read back consistently. -/
theorem hexVal_hexDigitChar (k : Nat) (h : k < 16) :
    hexVal (hexDigitChar k) = some k := by
  interval_cases k <;> rfl

/-- The string-body parse inverts the serializer's escaping. -/
theorem parseStrBody_escBody : ∀ s rest,
    parseStrBody (escBody s ++ '"' :: rest) = some (s, rest) := by
  intro s
  induction s with
  | nil => intro rest; rfl
  | cons c s2 ih =>
    intro rest
    have ihW := ih rest
    rw [show escBody (c :: s2) = escChar c ++ escBody s2 from rfl,
      List.append_assoc]
    generalize hw : escBody s2 ++ '"' :: rest = W at ihW ⊢
    by_cases hq : c = '"'
    · subst hq
      simp [escChar, parseStrBody, parseStrEsc, ihW]
    · by_cases hbs : c = '\\'
      · subst hbs
        simp [escChar, parseStrBody, parseStrEsc, ihW]
      · by_cases hb : c = '\x08'
        · subst hb
          simp [escChar, parseStrBody, parseStrEsc, ihW]
        · by_cases hf : c = '\x0c'
          · subst hf
            simp [escChar, parseStrBody, parseStrEsc, ihW]
          · by_cases hn : c = '\n'
            · subst hn
              simp [escChar, parseStrBody, parseStrEsc, ihW]
            · by_cases hr : c = '\r'
              · subst hr
                simp [escChar, parseStrBody, parseStrEsc, ihW]
              · by_cases ht : c = '\t'
                · subst ht
                  simp [escChar, parseStrBody, parseStrEsc, ihW]
                · by_cases hctl : c.toNat < 32
                  · rw [show escChar c =
                      ['\\', 'u', '0', '0', hexDigitChar (c.toNat / 16),
                        hexDigitChar (c.toNat % 16)] from by
                      rw [escChar]
                      rw [if_neg hq, if_neg hbs, if_neg hb, if_neg hf,
                        if_neg hn, if_neg hr, if_neg ht, if_pos hctl]]
                    simp only [List.cons_append, List.nil_append]
                    have h16a : c.toNat / 16 < 16 := by omega
                    have h16b : c.toNat % 16 < 16 := by omega
                    simp [parseStrBody, parseStrEsc,
                      show hexVal '0' = some 0 from rfl,
                      hexVal_hexDigitChar _ h16a, hexVal_hexDigitChar _ h16b,
                      ihW]
                    rw [show c.toNat / 16 * 16 + c.toNat % 16 = c.toNat from by
                      omega]
                    exact Char.ofNat_toNat c
                  · rw [show escChar c = [c] from by
                      rw [escChar]
                      rw [if_neg hq, if_neg hbs, if_neg hb, if_neg hf,
                        if_neg hn, if_neg hr, if_neg ht, if_neg hctl]]
                    simp only [List.cons_append, List.nil_append]
                    simp only [parseStrBody, if_neg hq, if_neg hbs,
                      if_neg hctl, ihW]

/-! ### Whitespace lemmas -/

/-- Leading spaces are skipped. -/
theorem skipWs_spaces (ind x : List Char) (h : ∀ c ∈ ind, c = ' ') :
    skipWs (ind ++ x) = skipWs x := by
  induction ind with
  | nil => rfl
  | cons c t ih =>
    rw [List.cons_append, skipWs,
      if_pos (by rw [h c (by simp)]; rfl)]
    exact ih (fun u hu => h u (by simp [hu]))

/-- A non-whitespace head stops the skip. -/
theorem skipWs_stop (c : Char) (x : List Char) (h : isJsonWs c = false) :
    skipWs (c :: x) = c :: x := by
  rw [skipWs, if_neg (by rw [h]; simp)]

/-- A leading newline is skipped. -/
theorem skipWs_nl (x : List Char) : skipWs ('\n' :: x) = skipWs x := rfl

/-! ### Head shape of serialized values -/

/-- Every serialized value begins with a character that is not whitespace,
not a closing bracket, not a comma or colon, and not a line break. -/
theorem stringifyAt_head (ind : List Char) (d : JsonValue) :
    ∃ c t, stringifyAt ind d = c :: t ∧ isJsonWs c = false ∧
      c ≠ ']' ∧ c ≠ '\x7d' ∧ c ≠ ',' := by
  match d with
  | JsonValue.null => exact ⟨'n', _, rfl, by decide, by decide, by decide, by decide⟩
  | JsonValue.bool true => exact ⟨'t', _, rfl, by decide, by decide, by decide, by decide⟩
  | JsonValue.bool false => exact ⟨'f', _, rfl, by decide, by decide, by decide, by decide⟩
  | JsonValue.str s => exact ⟨'"', _, rfl, by decide, by decide, by decide, by decide⟩
  | JsonValue.arr [] => exact ⟨'[', _, rfl, by decide, by decide, by decide, by decide⟩
  | JsonValue.arr (x :: xs) =>
    exact ⟨'[', _, rfl, by decide, by decide, by decide, by decide⟩
  | JsonValue.obj [] => exact ⟨'\x7b', _, rfl, by decide, by decide, by decide, by decide⟩
  | JsonValue.obj (m :: ms) =>
    exact ⟨'\x7b', _, rfl, by decide, by decide, by decide, by decide⟩
  | JsonValue.num n =>
    show ∃ c t, intChars n = c :: t ∧ _
    rw [intChars]
    by_cases hneg : n < 0
    · rw [if_pos hneg]
      exact ⟨'-', _, rfl, by decide, by decide, by decide, by decide⟩
    · rw [if_neg hneg]
      match hsh : natChars n.natAbs with
      | [] =>
        rw [natChars_eq] at hsh
        exact absurd hsh (natDigitsL_ne_nil _)
      | c :: t =>
        have hcd : isDigitChar c = true := by
          rw [natChars_eq] at hsh
          exact (natDigitsL_digits n.natAbs).1 c (by rw [hsh]; simp)
        obtain ⟨hws, _, _, _, _, _, _, hrb, hcb, hcm, _, _⟩ :=
          digitChar_not_special c hcd
        exact ⟨c, t, rfl, hws, hrb, hcb, hcm⟩

/-! ### Object construction from parsed members -/

/-- A key absent from the list is appended by `setKey`. -/
theorem setKey_append_fresh (m : List (List Char × JsonValue))
    (k : List Char) (v : JsonValue) (h : lookupKey m k = none) :
    setKey m k v = m ++ [(k, v)] := by
  induction m with
  | nil => rfl
  | cons kv rest ih =>
    obtain ⟨k0, w⟩ := kv
    rw [lookupKey] at h
    by_cases hk : k0 = k
    · rw [if_pos hk] at h
      exact absurd h (by simp)
    · rw [if_neg hk] at h
      rw [setKey, if_neg hk, ih h]
      rfl

/-- Members of a list with no binding for a key have other keys. -/
theorem lookupKey_none_mem (m : List (List Char × JsonValue))
    (k : List Char) (h : lookupKey m k = none) :
    ∀ kv ∈ m, kv.1 ≠ k := by
  induction m with
  | nil => intro kv hkv; simp at hkv
  | cons kv0 rest ih =>
    intro kv hkv
    obtain ⟨k0, w⟩ := kv0
    rw [lookupKey] at h
    by_cases hk : k0 = k
    · rw [if_pos hk] at h
      exact absurd h (by simp)
    · rw [if_neg hk] at h
      rcases List.mem_cons.mp hkv with hkv | hkv
      · rw [hkv]
        exact hk
      · exact ih h kv hkv

/-- A lookup that fails on a prefix continues in the suffix. -/
theorem lookupKey_append_none (m l : List (List Char × JsonValue))
    (k : List Char) (h : lookupKey m k = none) :
    lookupKey (m ++ l) k = lookupKey l k := by
  induction m with
  | nil => rfl
  | cons kv rest ih =>
    obtain ⟨k0, w⟩ := kv
    rw [lookupKey] at h
    by_cases hk : k0 = k
    · rw [if_pos hk] at h
      exact absurd h (by simp)
    · rw [if_neg hk] at h
      rw [List.cons_append, lookupKey, if_neg hk, ih h]

/-- Folding JavaScript property assignment over an accumulator holding none
of the keys, with the keys pairwise distinct, appends the members. -/
theorem foldl_setKey_fresh : ∀ (ms acc : List (List Char × JsonValue)),
    nodupKeysB ms = true → (∀ kv ∈ ms, lookupKey acc kv.1 = none) →
    List.foldl (fun a kv => setKey a kv.1 kv.2) acc ms = acc ++ ms := by
  intro ms
  induction ms with
  | nil => intro acc _ _; simp
  | cons kv rest ih =>
    intro acc hnd hfresh
    obtain ⟨k, v⟩ := kv
    rw [nodupKeysB] at hnd
    simp only [Bool.and_eq_true] at hnd
    rw [List.foldl_cons]
    rw [show setKey acc k v = acc ++ [(k, v)] from
      setKey_append_fresh acc k v (hfresh (k, v) (by simp))]
    rw [ih (acc ++ [(k, v)]) hnd.2 ?_]
    · simp
    · intro kv2 hkv2
      rw [lookupKey_append_none acc [(k, v)] kv2.1
        (hfresh kv2 (by simp [hkv2]))]
      rw [lookupKey]
      have hne : k ≠ kv2.1 := by
        have hmem := lookupKey_none_mem rest k
          (by
            have := hnd.1
            simp only [Option.isNone_iff_eq_none] at this
            exact this) kv2 hkv2
        exact fun hc => hmem hc.symm
      rw [if_neg hne, lookupKey]

/-- Folding JavaScript property assignment over members with pairwise
distinct keys reproduces the member list. -/
theorem mkObj_nodup (ms : List (List Char × JsonValue))
    (h : nodupKeysB ms = true) : mkObj ms = ms := by
  rw [mkObj, foldl_setKey_fresh ms [] h (fun kv _ => rfl)]
  simp

/-! ### Heads of serialized element and member lists -/

/-- A serialized element list begins like its first element. -/
theorem stringifyElems_head (ind2 : List Char) (x : JsonValue)
    (xs : List JsonValue) :
    ∃ c t, stringifyElems ind2 (x :: xs) = c :: t ∧ isJsonWs c = false ∧
      c ≠ ']' ∧ c ≠ '\x7d' := by
  obtain ⟨c, t, heq, hws, hrb, hcb, _⟩ := stringifyAt_head ind2 x
  match xs with
  | [] => exact ⟨c, t, by rw [stringifyElems, heq], hws, hrb, hcb⟩
  | y :: ys =>
    exact ⟨c, t ++ (',' :: '\n' :: (ind2 ++ stringifyElems ind2 (y :: ys))),
      by rw [stringifyElems, heq, List.cons_append], hws, hrb, hcb⟩

/-- A serialized member list begins with the opening quote of its first
key. -/
theorem stringifyMembers_head (ind2 : List Char) (k : List Char)
    (v : JsonValue) (ms : List (List Char × JsonValue)) :
    ∃ t, stringifyMembers ind2 ((k, v) :: ms) = '"' :: t := by
  match ms with
  | [] =>
    exact ⟨_, by rw [stringifyMembers, renderString, List.cons_append]⟩
  | m2 :: ms2 =>
    exact ⟨_, by
      rw [stringifyMembers, renderString, List.cons_append, List.cons_append]⟩

/-- Spaces stay spaces after extending the indentation. -/
theorem spaces_extend (ind : List Char) (h : ∀ c ∈ ind, c = ' ') :
    ∀ c ∈ ind ++ [' ', ' '], c = ' ' := by
  intro c hc
  rcases List.mem_append.mp hc with hc | hc
  · exact h c hc
  · rcases (by simpa using hc : c = ' ' ∨ c = ' ') with hc2 | hc2 <;> exact hc2

/-! ### Parser dispatch at a number head -/

/-- A value whose input starts with a sign or digit parses through the
integer token. -/
theorem parseJValue_numHead (f : Nat) (c : Char) (t : List Char)
    (hws : isJsonWs c = false) (hn : c ≠ 'n') (ht : c ≠ 't') (hf : c ≠ 'f')
    (hq : c ≠ '"') (hbk : c ≠ '[') (hbc : c ≠ '\x7b')
    (hg : (c = '-' ∨ isDigitChar c = true)) :
    parseJValue (f + 1) (c :: t) =
      (match parseIntTok (c :: t) with
       | some (n, r2) => some (JsonValue.num n, r2)
       | none => none) := by
  have hskip : skipWs (c :: t) = c :: t := skipWs_stop c t hws
  simp only [parseJValue, hskip]
  simp [hn, ht, hf, hq, hbk, hbc, hg]

/-! ### Number head shape -/

/-- A serialized integer begins with a sign or digit, which dispatches the
parser to the number branch. -/
theorem intChars_head (n : Int) :
    ∃ c t, intChars n = c :: t ∧ isJsonWs c = false ∧ c ≠ 'n' ∧ c ≠ 't' ∧
      c ≠ 'f' ∧ c ≠ '"' ∧ c ≠ '[' ∧ c ≠ '\x7b' ∧
      (c = '-' ∨ isDigitChar c = true) := by
  rw [intChars]
  by_cases hneg : n < 0
  · rw [if_pos hneg]
    exact ⟨'-', _, rfl, by decide, by decide, by decide, by decide, by decide,
      by decide, by decide, Or.inl rfl⟩
  · rw [if_neg hneg]
    match hsh : natChars n.natAbs with
    | [] =>
      rw [natChars_eq] at hsh
      exact absurd hsh (natDigitsL_ne_nil _)
    | c :: t =>
      have hcd : isDigitChar c = true := by
        rw [natChars_eq] at hsh
        exact (natDigitsL_digits n.natAbs).1 c (by rw [hsh]; simp)
      obtain ⟨hws, hn, ht, hf, hq, hbk, hbc, _, _, _, _, _⟩ :=
        digitChar_not_special c hcd
      exact ⟨c, t, rfl, hws, hn, ht, hf, hq, hbk, hbc, Or.inr hcd⟩

/-! ### The parse/stringify round trip -/

mutual

/-- Parsing a serialized well-formed value returns the value and the
trailing input (provided enough fuel, a space-only enclosing indentation,
and a remainder that cannot extend a number token). -/
theorem rt_val : ∀ (d : JsonValue) (ind : List Char) (fuel : Nat)
    (rest : List Char), wfDoc d = true → (∀ c ∈ ind, c = ' ') →
    (stringifyAt ind d).length < fuel → numDelim rest = true →
    parseJValue fuel (stringifyAt ind d ++ rest) = some (d, rest)
  | JsonValue.null, ind, fuel, rest, _, _, hfu, _ => by
    cases fuel with
    | zero => exact absurd hfu (by omega)
    | succ f => simp [stringifyAt, parseJValue, skipWs, isJsonWs]
  | JsonValue.bool true, ind, fuel, rest, _, _, hfu, _ => by
    cases fuel with
    | zero => exact absurd hfu (by omega)
    | succ f => simp [stringifyAt, parseJValue, skipWs, isJsonWs]
  | JsonValue.bool false, ind, fuel, rest, _, _, hfu, _ => by
    cases fuel with
    | zero => exact absurd hfu (by omega)
    | succ f => simp [stringifyAt, parseJValue, skipWs, isJsonWs]
  | JsonValue.num n, ind, fuel, rest, _, _, hfu, hrest => by
    cases fuel with
    | zero => exact absurd hfu (by omega)
    | succ f =>
      obtain ⟨c0, t0, hsh, hws, hn, ht, hf2, hq, hbk, hbc0, hg⟩ :=
        intChars_head n
      have hkey := parseIntTok_intChars n rest hrest
      rw [hsh] at hkey
      simp only [List.cons_append] at hkey
      rw [show stringifyAt ind (JsonValue.num n) = intChars n from rfl, hsh,
        List.cons_append,
        parseJValue_numHead f c0 (t0 ++ rest) hws hn ht hf2 hq hbk hbc0 hg]
      generalize hw : t0 ++ rest = w at hkey ⊢
      simp only [hkey]
  | JsonValue.str s, ind, fuel, rest, _, _, hfu, _ => by
    cases fuel with
    | zero => exact absurd hfu (by omega)
    | succ f =>
      have harg : stringifyAt ind (JsonValue.str s) ++ rest =
          '"' :: (escBody s ++ ('"' :: rest)) := by
        simp [stringifyAt, renderString]
      rw [harg]
      have hsb := parseStrBody_escBody s rest
      generalize hW : escBody s ++ ('"' :: rest) = W at hsb ⊢
      simp only [parseJValue, skipWs_stop '"' W (by decide), hsb]
  | JsonValue.arr [], ind, fuel, rest, _, _, hfu, _ => by
    cases fuel with
    | zero => exact absurd hfu (by omega)
    | succ f => simp [stringifyAt, parseJValue, skipWs, isJsonWs]
  | JsonValue.arr (x :: xs), ind, fuel, rest, hwf, hind, hfu, _ => by
    cases fuel with
    | zero => exact absurd hfu (by omega)
    | succ f =>
      have hind2 := spaces_extend ind hind
      rw [wfDoc] at hwf
      have hfE : (stringifyElems (ind ++ [' ', ' ']) (x :: xs)).length + 1
          < f := by
        rw [show stringifyAt ind (JsonValue.arr (x :: xs)) =
          '[' :: '\n' :: ((ind ++ [' ', ' ']) ++
            (stringifyElems (ind ++ [' ', ' ']) (x :: xs) ++
              ('\n' :: (ind ++ [']'])))) from rfl] at hfu
        simp only [List.length_cons, List.length_append] at hfu
        omega
      have hrec := rt_elems x xs ind f rest hwf hind hfE
      have harg : stringifyAt ind (JsonValue.arr (x :: xs)) ++ rest =
          '[' :: ('\n' :: ((ind ++ [' ', ' ']) ++
            (stringifyElems (ind ++ [' ', ' ']) (x :: xs) ++
              ('\n' :: (ind ++ (']' :: rest)))))) := by
        rw [show stringifyAt ind (JsonValue.arr (x :: xs)) =
          '[' :: '\n' :: ((ind ++ [' ', ' ']) ++
            (stringifyElems (ind ++ [' ', ' ']) (x :: xs) ++
              ('\n' :: (ind ++ [']'])))) from rfl]
        simp [List.append_assoc]
      rw [harg]
      obtain ⟨ce, te, hE, hwsE, hrbE, _⟩ :=
        stringifyElems_head (ind ++ [' ', ' ']) x xs
      have hrec2 : parseJElems f
          (ce :: (te ++ ('\n' :: (ind ++ (']' :: rest))))) =
          some (x :: xs, rest) := by
        rw [← List.cons_append, ← hE]
        exact hrec
      have hskipR : skipWs ('\n' :: ((ind ++ [' ', ' ']) ++
          (stringifyElems (ind ++ [' ', ' ']) (x :: xs) ++
            ('\n' :: (ind ++ (']' :: rest)))))) =
          ce :: (te ++ ('\n' :: (ind ++ (']' :: rest)))) := by
        rw [skipWs_nl, skipWs_spaces _ _ hind2, hE, List.cons_append,
          skipWs_stop ce _ hwsE]
      generalize hg1 : ('\n' :: ((ind ++ [' ', ' ']) ++
        (stringifyElems (ind ++ [' ', ' ']) (x :: xs) ++
          ('\n' :: (ind ++ (']' :: rest)))))) = R at hskipR ⊢
      generalize hg2 : te ++ ('\n' :: (ind ++ (']' :: rest))) = S
        at hskipR hrec2
      simp only [parseJValue, skipWs_stop '[' R (by decide), hskipR,
        if_neg hrbE, hrec2]
  | JsonValue.obj [], ind, fuel, rest, _, _, hfu, _ => by
    cases fuel with
    | zero => exact absurd hfu (by omega)
    | succ f => simp [stringifyAt, parseJValue, skipWs, isJsonWs]
  | JsonValue.obj ((k, v) :: ms), ind, fuel, rest, hwf, hind, hfu, _ => by
    cases fuel with
    | zero => exact absurd hfu (by omega)
    | succ f =>
      have hind2 := spaces_extend ind hind
      rw [wfDoc] at hwf
      simp only [Bool.and_eq_true] at hwf
      have hfM : (stringifyMembers (ind ++ [' ', ' ']) ((k, v) :: ms)).length
          + 1 < f := by
        rw [show stringifyAt ind (JsonValue.obj ((k, v) :: ms)) =
          '\x7b' :: '\n' :: ((ind ++ [' ', ' ']) ++
            (stringifyMembers (ind ++ [' ', ' ']) ((k, v) :: ms) ++
              ('\n' :: (ind ++ ['\x7d'])))) from rfl] at hfu
        simp only [List.length_cons, List.length_append] at hfu
        omega
      have hrec := rt_members k v ms ind f rest hwf.2 hind hfM
      have harg : stringifyAt ind (JsonValue.obj ((k, v) :: ms)) ++ rest =
          '\x7b' :: ('\n' :: ((ind ++ [' ', ' ']) ++
            (stringifyMembers (ind ++ [' ', ' ']) ((k, v) :: ms) ++
              ('\n' :: (ind ++ ('\x7d' :: rest)))))) := by
        rw [show stringifyAt ind (JsonValue.obj ((k, v) :: ms)) =
          '\x7b' :: '\n' :: ((ind ++ [' ', ' ']) ++
            (stringifyMembers (ind ++ [' ', ' ']) ((k, v) :: ms) ++
              ('\n' :: (ind ++ ['\x7d'])))) from rfl]
        simp [List.append_assoc]
      rw [harg]
      obtain ⟨tM, hM⟩ := stringifyMembers_head (ind ++ [' ', ' ']) k v ms
      have hrec2 : parseJMembers f
          ('"' :: (tM ++ ('\n' :: (ind ++ ('\x7d' :: rest))))) =
          some ((k, v) :: ms, rest) := by
        rw [← List.cons_append, ← hM]
        exact hrec
      have hskipR : skipWs ('\n' :: ((ind ++ [' ', ' ']) ++
          (stringifyMembers (ind ++ [' ', ' ']) ((k, v) :: ms) ++
            ('\n' :: (ind ++ ('\x7d' :: rest)))))) =
          '"' :: (tM ++ ('\n' :: (ind ++ ('\x7d' :: rest)))) := by
        rw [skipWs_nl, skipWs_spaces _ _ hind2, hM, List.cons_append,
          skipWs_stop '"' _ (by decide)]
      generalize hg1 : ('\n' :: ((ind ++ [' ', ' ']) ++
        (stringifyMembers (ind ++ [' ', ' ']) ((k, v) :: ms) ++
          ('\n' :: (ind ++ ('\x7d' :: rest)))))) = R at hskipR ⊢
      generalize hg2 : tM ++ ('\n' :: (ind ++ ('\x7d' :: rest))) = S
        at hskipR hrec2
      simp only [parseJValue, skipWs_stop '\x7b' R (by decide), hskipR,
        if_neg (by decide : ¬('"' = '\x7d')), hrec2]
      rw [mkObj_nodup _ hwf.1]
  termination_by d _ _ _ _ _ _ _ => sizeOf d

/-- Parsing a serialized element list returns the elements and the input
after the closing bracket. -/
theorem rt_elems : ∀ (x : JsonValue) (xs : List JsonValue) (ind : List Char)
    (fuel : Nat) (rest : List Char), wfElems (x :: xs) = true →
    (∀ c ∈ ind, c = ' ') →
    (stringifyElems (ind ++ [' ', ' ']) (x :: xs)).length + 1 < fuel →
    parseJElems fuel (stringifyElems (ind ++ [' ', ' ']) (x :: xs) ++
      ('\n' :: (ind ++ (']' :: rest)))) = some (x :: xs, rest)
  | x, [], ind, fuel, rest, hwf, hind, hfu => by
    cases fuel with
    | zero => exact absurd hfu (by omega)
    | succ f =>
      rw [wfElems] at hwf
      simp only [Bool.and_eq_true] at hwf
      rw [show stringifyElems (ind ++ [' ', ' ']) [x] =
        stringifyAt (ind ++ [' ', ' ']) x from rfl] at hfu ⊢
      have hv := rt_val x (ind ++ [' ', ' ']) f
        ('\n' :: (ind ++ (']' :: rest))) hwf.1 (spaces_extend ind hind)
        (by omega) rfl
      have hskip : skipWs ('\n' :: (ind ++ (']' :: rest))) = ']' :: rest := by
        rw [skipWs_nl, skipWs_spaces _ _ hind, skipWs_stop ']' rest (by decide)]
      simp only [parseJElems, hv, hskip]
  | x, y :: ys, ind, fuel, rest, hwf, hind, hfu => by
    cases fuel with
    | zero => exact absurd hfu (by omega)
    | succ f =>
      rw [wfElems] at hwf
      simp only [Bool.and_eq_true] at hwf
      have hlen : (stringifyAt (ind ++ [' ', ' ']) x).length <
          f ∧ (stringifyElems (ind ++ [' ', ' ']) (y :: ys)).length + 1
          < f := by
        rw [show stringifyElems (ind ++ [' ', ' ']) (x :: y :: ys) =
          stringifyAt (ind ++ [' ', ' ']) x ++
            (',' :: '\n' :: ((ind ++ [' ', ' ']) ++
              stringifyElems (ind ++ [' ', ' ']) (y :: ys))) from rfl] at hfu
        simp only [List.length_append, List.length_cons] at hfu
        omega
      have harg : stringifyElems (ind ++ [' ', ' ']) (x :: y :: ys) ++
          ('\n' :: (ind ++ (']' :: rest))) =
          stringifyAt (ind ++ [' ', ' ']) x ++
            (',' :: ('\n' :: ((ind ++ [' ', ' ']) ++
              (stringifyElems (ind ++ [' ', ' ']) (y :: ys) ++
                ('\n' :: (ind ++ (']' :: rest))))))) := by
        rw [show stringifyElems (ind ++ [' ', ' ']) (x :: y :: ys) =
          stringifyAt (ind ++ [' ', ' ']) x ++
            (',' :: '\n' :: ((ind ++ [' ', ' ']) ++
              stringifyElems (ind ++ [' ', ' ']) (y :: ys))) from rfl]
        simp [List.append_assoc]
      rw [harg]
      have hv := rt_val x (ind ++ [' ', ' ']) f
        (',' :: ('\n' :: ((ind ++ [' ', ' ']) ++
          (stringifyElems (ind ++ [' ', ' ']) (y :: ys) ++
            ('\n' :: (ind ++ (']' :: rest)))))))
        hwf.1 (spaces_extend ind hind) hlen.1 rfl
      have hrec := rt_elems y ys ind f rest hwf.2 hind hlen.2
      obtain ⟨ce, te, hE, hwsE, _, _⟩ :=
        stringifyElems_head (ind ++ [' ', ' ']) y ys
      have hrec2 : parseJElems f
          (ce :: (te ++ ('\n' :: (ind ++ (']' :: rest))))) =
          some (y :: ys, rest) := by
        rw [← List.cons_append, ← hE]
        exact hrec
      have hskip2 : skipWs ('\n' :: ((ind ++ [' ', ' ']) ++
          (stringifyElems (ind ++ [' ', ' ']) (y :: ys) ++
            ('\n' :: (ind ++ (']' :: rest)))))) =
          ce :: (te ++ ('\n' :: (ind ++ (']' :: rest)))) := by
        rw [skipWs_nl, skipWs_spaces _ _ (spaces_extend ind hind), hE,
          List.cons_append, skipWs_stop ce _ hwsE]
      generalize hg2 : te ++ ('\n' :: (ind ++ (']' :: rest))) = S
        at hskip2 hrec2
      generalize hg1 : ('\n' :: ((ind ++ [' ', ' ']) ++
        (stringifyElems (ind ++ [' ', ' ']) (y :: ys) ++
          ('\n' :: (ind ++ (']' :: rest)))))) = R at hskip2 hv ⊢
      simp only [parseJElems, hv, skipWs_stop ',' R (by decide), hskip2,
        hrec2]
  termination_by x xs _ _ _ _ _ _ => sizeOf x + sizeOf xs

/-- Parsing a serialized member list returns the members and the input
after the closing brace. -/
theorem rt_members : ∀ (k : List Char) (v : JsonValue)
    (ms : List (List Char × JsonValue)) (ind : List Char) (fuel : Nat)
    (rest : List Char), wfMembers ((k, v) :: ms) = true →
    (∀ c ∈ ind, c = ' ') →
    (stringifyMembers (ind ++ [' ', ' ']) ((k, v) :: ms)).length + 1 < fuel →
    parseJMembers fuel (stringifyMembers (ind ++ [' ', ' ']) ((k, v) :: ms) ++
      ('\n' :: (ind ++ ('\x7d' :: rest)))) = some ((k, v) :: ms, rest)
  | k, v, [], ind, fuel, rest, hwf, hind, hfu => by
    cases fuel with
    | zero => exact absurd hfu (by omega)
    | succ f =>
      rw [wfMembers] at hwf
      simp only [Bool.and_eq_true] at hwf
      have hlen : (stringifyAt (ind ++ [' ', ' ']) v).length < f := by
        rw [show stringifyMembers (ind ++ [' ', ' ']) [(k, v)] =
          renderString k ++ (':' :: ' ' ::
            stringifyAt (ind ++ [' ', ' ']) v) from rfl] at hfu
        simp only [List.length_append, List.length_cons] at hfu
        omega
      have harg : stringifyMembers (ind ++ [' ', ' ']) [(k, v)] ++
          ('\n' :: (ind ++ ('\x7d' :: rest))) =
          '"' :: (escBody k ++ ('"' :: (':' :: (' ' ::
            (stringifyAt (ind ++ [' ', ' ']) v ++
              ('\n' :: (ind ++ ('\x7d' :: rest)))))))) := by
        rw [show stringifyMembers (ind ++ [' ', ' ']) [(k, v)] =
          renderString k ++ (':' :: ' ' ::
            stringifyAt (ind ++ [' ', ' ']) v) from rfl, renderString]
        simp [List.append_assoc]
      rw [harg]
      have hv := rt_val v (ind ++ [' ', ' ']) f
        ('\n' :: (ind ++ ('\x7d' :: rest))) hwf.1 (spaces_extend ind hind)
        hlen rfl
      obtain ⟨cv, tv, hV, hwsV, _, _, _⟩ :=
        stringifyAt_head (ind ++ [' ', ' ']) v
      have hv2 : parseJValue f (cv :: (tv ++ ('\n' ::
          (ind ++ ('\x7d' :: rest))))) = some (v, '\n' ::
          (ind ++ ('\x7d' :: rest))) := by
        rw [← List.cons_append, ← hV]
        exact hv
      have hsb := parseStrBody_escBody k (':' :: (' ' ::
        (stringifyAt (ind ++ [' ', ' ']) v ++
          ('\n' :: (ind ++ ('\x7d' :: rest))))))
      have hskipV : skipWs (' ' :: (stringifyAt (ind ++ [' ', ' ']) v ++
          ('\n' :: (ind ++ ('\x7d' :: rest))))) =
          cv :: (tv ++ ('\n' :: (ind ++ ('\x7d' :: rest)))) := by
        rw [show skipWs (' ' :: (stringifyAt (ind ++ [' ', ' ']) v ++
          ('\n' :: (ind ++ ('\x7d' :: rest))))) =
          skipWs (stringifyAt (ind ++ [' ', ' ']) v ++
          ('\n' :: (ind ++ ('\x7d' :: rest)))) from rfl, hV,
          List.cons_append, skipWs_stop cv _ hwsV]
      have hskipEnd : skipWs ('\n' :: (ind ++ ('\x7d' :: rest))) =
          '\x7d' :: rest := by
        rw [skipWs_nl, skipWs_spaces _ _ hind,
          skipWs_stop '\x7d' rest (by decide)]
      generalize hgV : tv ++ ('\n' :: (ind ++ ('\x7d' :: rest))) = SV
        at hskipV hv2
      generalize hgW : escBody k ++ ('"' :: (':' :: (' ' ::
        (stringifyAt (ind ++ [' ', ' ']) v ++
          ('\n' :: (ind ++ ('\x7d' :: rest))))))) = W at hsb ⊢
      simp only [parseJMembers, skipWs_stop '"' W (by decide), hsb,
        skipWs_stop ':' _ (by decide), hskipV, hv2, hskipEnd]
  | k, v, (k2, v2) :: ms2, ind, fuel, rest, hwf, hind, hfu => by
    cases fuel with
    | zero => exact absurd hfu (by omega)
    | succ f =>
      rw [wfMembers] at hwf
      simp only [Bool.and_eq_true] at hwf
      have hlen : (stringifyAt (ind ++ [' ', ' ']) v).length < f ∧
          (stringifyMembers (ind ++ [' ', ' ']) ((k2, v2) :: ms2)).length + 1
          < f := by
        rw [show stringifyMembers (ind ++ [' ', ' ']) ((k, v) :: (k2, v2) :: ms2) =
          renderString k ++ (':' :: ' ' ::
            stringifyAt (ind ++ [' ', ' ']) v) ++
            (',' :: '\n' :: ((ind ++ [' ', ' ']) ++
              stringifyMembers (ind ++ [' ', ' ']) ((k2, v2) :: ms2)))
          from rfl] at hfu
        simp only [List.length_append, List.length_cons] at hfu
        omega
      have harg : stringifyMembers (ind ++ [' ', ' '])
          ((k, v) :: (k2, v2) :: ms2) ++
          ('\n' :: (ind ++ ('\x7d' :: rest))) =
          '"' :: (escBody k ++ ('"' :: (':' :: (' ' ::
            (stringifyAt (ind ++ [' ', ' ']) v ++
              (',' :: ('\n' :: ((ind ++ [' ', ' ']) ++
                (stringifyMembers (ind ++ [' ', ' ']) ((k2, v2) :: ms2) ++
                  ('\n' :: (ind ++ ('\x7d' :: rest)))))))))))) := by
        rw [show stringifyMembers (ind ++ [' ', ' ']) ((k, v) :: (k2, v2) :: ms2) =
          renderString k ++ (':' :: ' ' ::
            stringifyAt (ind ++ [' ', ' ']) v) ++
            (',' :: '\n' :: ((ind ++ [' ', ' ']) ++
              stringifyMembers (ind ++ [' ', ' ']) ((k2, v2) :: ms2)))
          from rfl, renderString]
        simp [List.append_assoc]
      rw [harg]
      have hv := rt_val v (ind ++ [' ', ' ']) f
        (',' :: ('\n' :: ((ind ++ [' ', ' ']) ++
          (stringifyMembers (ind ++ [' ', ' ']) ((k2, v2) :: ms2) ++
            ('\n' :: (ind ++ ('\x7d' :: rest)))))))
        hwf.1 (spaces_extend ind hind) hlen.1 rfl
      obtain ⟨cv, tv, hV, hwsV, _, _, _⟩ :=
        stringifyAt_head (ind ++ [' ', ' ']) v
      have hv2 : parseJValue f (cv :: (tv ++ (',' :: ('\n' ::
          ((ind ++ [' ', ' ']) ++
            (stringifyMembers (ind ++ [' ', ' ']) ((k2, v2) :: ms2) ++
              ('\n' :: (ind ++ ('\x7d' :: rest))))))))) =
          some (v, ',' :: ('\n' :: ((ind ++ [' ', ' ']) ++
            (stringifyMembers (ind ++ [' ', ' ']) ((k2, v2) :: ms2) ++
              ('\n' :: (ind ++ ('\x7d' :: rest))))))) := by
        rw [← List.cons_append, ← hV]
        exact hv
      have hrec := rt_members k2 v2 ms2 ind f rest hwf.2 hind hlen.2
      obtain ⟨tM, hM⟩ := stringifyMembers_head (ind ++ [' ', ' ']) k2 v2 ms2
      have hrec2 : parseJMembers f
          ('"' :: (tM ++ ('\n' :: (ind ++ ('\x7d' :: rest))))) =
          some ((k2, v2) :: ms2, rest) := by
        rw [← List.cons_append, ← hM]
        exact hrec
      have hskipM : skipWs ('\n' :: ((ind ++ [' ', ' ']) ++
          (stringifyMembers (ind ++ [' ', ' ']) ((k2, v2) :: ms2) ++
            ('\n' :: (ind ++ ('\x7d' :: rest)))))) =
          '"' :: (tM ++ ('\n' :: (ind ++ ('\x7d' :: rest)))) := by
        rw [skipWs_nl, skipWs_spaces _ _ (spaces_extend ind hind), hM,
          List.cons_append, skipWs_stop '"' _ (by decide)]
      have hskipV : skipWs (' ' :: (stringifyAt (ind ++ [' ', ' ']) v ++
          (',' :: ('\n' :: ((ind ++ [' ', ' ']) ++
            (stringifyMembers (ind ++ [' ', ' ']) ((k2, v2) :: ms2) ++
              ('\n' :: (ind ++ ('\x7d' :: rest))))))))) =
          cv :: (tv ++ (',' :: ('\n' :: ((ind ++ [' ', ' ']) ++
            (stringifyMembers (ind ++ [' ', ' ']) ((k2, v2) :: ms2) ++
              ('\n' :: (ind ++ ('\x7d' :: rest)))))))) := by
        rw [show skipWs (' ' :: (stringifyAt (ind ++ [' ', ' ']) v ++
          (',' :: ('\n' :: ((ind ++ [' ', ' ']) ++
            (stringifyMembers (ind ++ [' ', ' ']) ((k2, v2) :: ms2) ++
              ('\n' :: (ind ++ ('\x7d' :: rest))))))))) =
          skipWs (stringifyAt (ind ++ [' ', ' ']) v ++
          (',' :: ('\n' :: ((ind ++ [' ', ' ']) ++
            (stringifyMembers (ind ++ [' ', ' ']) ((k2, v2) :: ms2) ++
              ('\n' :: (ind ++ ('\x7d' :: rest)))))))) from rfl, hV,
          List.cons_append, skipWs_stop cv _ hwsV]
      have hsb := parseStrBody_escBody k (':' :: (' ' ::
        (stringifyAt (ind ++ [' ', ' ']) v ++
          (',' :: ('\n' :: ((ind ++ [' ', ' ']) ++
            (stringifyMembers (ind ++ [' ', ' ']) ((k2, v2) :: ms2) ++
              ('\n' :: (ind ++ ('\x7d' :: rest))))))))))
      generalize hgM : tM ++ ('\n' :: (ind ++ ('\x7d' :: rest))) = SM
        at hskipM hrec2
      generalize hgV : tv ++ (',' :: ('\n' :: ((ind ++ [' ', ' ']) ++
        (stringifyMembers (ind ++ [' ', ' ']) ((k2, v2) :: ms2) ++
          ('\n' :: (ind ++ ('\x7d' :: rest))))))) = SV at hskipV hv2
      generalize hgR : ('\n' :: ((ind ++ [' ', ' ']) ++
        (stringifyMembers (ind ++ [' ', ' ']) ((k2, v2) :: ms2) ++
          ('\n' :: (ind ++ ('\x7d' :: rest)))))) = R
        at hskipM hv2 hskipV hsb ⊢
      generalize hgW : escBody k ++ ('"' :: (':' :: (' ' ::
        (stringifyAt (ind ++ [' ', ' ']) v ++ (',' :: R))))) = W at hsb ⊢
      simp only [parseJMembers, skipWs_stop '"' W (by decide), hsb,
        skipWs_stop ':' _ (by decide), hskipV, hv2,
        skipWs_stop ',' R (by decide), hskipM, hrec2]
  termination_by _ v ms _ _ _ _ _ _ => sizeOf v + sizeOf ms

end

/-- A full parse of a serialized well-formed document recovers it. -/
theorem parseTop_stringifyTop (d : JsonValue) (h : wfDoc d = true) :
    parseTop (stringifyTop d) = some d := by
  have hv := rt_val d [] ((stringifyAt [] d).length + 1) [] h (by simp)
    (by omega) rfl
  rw [List.append_nil] at hv
  simp [parseTop, stringifyTop, hv, skipWs]

/-! ### The parser returns well-formed documents -/

/-- Property assignment preserves key distinctness. -/
theorem nodupKeysB_setKey (m : List (List Char × JsonValue)) (k : List Char)
    (v : JsonValue) (h : nodupKeysB m = true) :
    nodupKeysB (setKey m k v) = true := by
  induction m with
  | nil => rfl
  | cons kv rest ih =>
    obtain ⟨k0, v0⟩ := kv
    rw [nodupKeysB, Bool.and_eq_true] at h
    by_cases hk : k0 = k
    · rw [setKey, if_pos hk, nodupKeysB, Bool.and_eq_true]
      exact ⟨h.1, h.2⟩
    · rw [setKey, if_neg hk, nodupKeysB, Bool.and_eq_true]
      refine ⟨?_, ih h.2⟩
      rw [lookupKey_setKey_other rest k k0 v (fun he => hk he.symm)]
      exact h.1

/-- Property assignment with a well-formed value preserves member
well-formedness. -/
theorem wfMembers_setKey (m : List (List Char × JsonValue)) (k : List Char)
    (v : JsonValue) (hm : wfMembers m = true) (hv : wfDoc v = true) :
    wfMembers (setKey m k v) = true := by
  induction m with
  | nil =>
    rw [show setKey [] k v = [(k, v)] from rfl, wfMembers, Bool.and_eq_true]
    exact ⟨hv, rfl⟩
  | cons kv rest ih =>
    obtain ⟨k0, v0⟩ := kv
    rw [wfMembers, Bool.and_eq_true] at hm
    by_cases hk : k0 = k
    · rw [setKey, if_pos hk, wfMembers, Bool.and_eq_true]
      exact ⟨hv, hm.2⟩
    · rw [setKey, if_neg hk, wfMembers, Bool.and_eq_true]
      exact ⟨hm.1, ih hm.2⟩

/-- The object built from a list of well-formed members has distinct keys
and well-formed member values. -/
theorem mkObj_aux_wf : ∀ (ms acc : List (List Char × JsonValue)),
    nodupKeysB acc = true → wfMembers acc = true → wfMembers ms = true →
    nodupKeysB (List.foldl (fun a kv => setKey a kv.1 kv.2) acc ms) = true ∧
    wfMembers (List.foldl (fun a kv => setKey a kv.1 kv.2) acc ms) = true := by
  intro ms
  induction ms with
  | nil => intro acc h1 h2 _; exact ⟨h1, h2⟩
  | cons kv rest ih =>
    intro acc h1 h2 h3
    obtain ⟨k0, v0⟩ := kv
    rw [wfMembers, Bool.and_eq_true] at h3
    rw [List.foldl_cons]
    exact ih (setKey acc k0 v0) (nodupKeysB_setKey acc k0 v0 h1)
      (wfMembers_setKey acc k0 v0 h2 h3.1) h3.2

/-- The object the parser builds from well-formed members is well-formed. -/
theorem mkObj_wf (ms : List (List Char × JsonValue))
    (h : wfMembers ms = true) : wfDoc (JsonValue.obj (mkObj ms)) = true := by
  rw [wfDoc, Bool.and_eq_true, mkObj]
  exact mkObj_aux_wf ms [] rfl rfl h

/-- Every value produced by the parser has distinct keys in every object:
`JSON.parse` collapses duplicate members by last-write-wins. -/
theorem parse_wf : ∀ (f : Nat),
    (∀ cs v r, parseJValue f cs = some (v, r) → wfDoc v = true) ∧
    (∀ cs xs r, parseJElems f cs = some (xs, r) → wfElems xs = true) ∧
    (∀ cs ms r, parseJMembers f cs = some (ms, r) → wfMembers ms = true) := by
  intro f
  induction f with
  | zero =>
    refine ⟨?_, ?_, ?_⟩ <;> intro cs a r h <;>
      simp [parseJValue, parseJElems, parseJMembers] at h
  | succ f ih =>
    obtain ⟨ihV, ihE, ihM⟩ := ih
    refine ⟨?_, ?_, ?_⟩
    · intro cs v r h
      simp only [parseJValue] at h
      (repeat' split at h) <;>
      first
        | (rw [Option.some.injEq, Prod.mk.injEq] at h
           obtain ⟨hv, -⟩ := h
           subst hv
           first
             | rfl
             | (rw [wfDoc]; exact ihE _ _ _ (by assumption))
             | exact mkObj_wf _ (ihM _ _ _ (by assumption)))
        | simp at h
    · intro cs xs r h
      simp only [parseJElems] at h
      (repeat' split at h) <;>
      first
        | (rw [Option.some.injEq, Prod.mk.injEq] at h
           obtain ⟨hv, -⟩ := h
           subst hv
           rw [wfElems, Bool.and_eq_true]
           first
             | exact ⟨ihV _ _ _ (by assumption), ihE _ _ _ (by assumption)⟩
             | exact ⟨ihV _ _ _ (by assumption), rfl⟩)
        | simp at h
    · intro cs ms r h
      simp only [parseJMembers] at h
      (repeat' split at h) <;>
      first
        | (rw [Option.some.injEq, Prod.mk.injEq] at h
           obtain ⟨hv, -⟩ := h
           subst hv
           rw [wfMembers, Bool.and_eq_true]
           first
             | exact ⟨ihV _ _ _ (by assumption), ihM _ _ _ (by assumption)⟩
             | exact ⟨ihV _ _ _ (by assumption), rfl⟩)
        | simp at h

/-- A full `JSON.parse` run returns a well-formed document. -/
theorem parseTop_wf (cs : List Char) (v : JsonValue)
    (h : parseTop cs = some v) : wfDoc v = true := by
  rw [parseTop] at h
  split at h
  · split at h
    · rw [Option.some.injEq] at h
      subst h
      exact (parse_wf _).1 _ _ _ (by assumption)
    · exact absurd h (by simp)
  · exact absurd h (by simp)

/-- A member found by lookup in a well-formed member list is well-formed. -/
theorem wfMembers_lookup (m : List (List Char × JsonValue)) (k : List Char)
    (v : JsonValue) (h : lookupKey m k = some v) (hm : wfMembers m = true) :
    wfDoc v = true := by
  induction m with
  | nil => simp [lookupKey] at h
  | cons kv rest ih =>
    obtain ⟨k0, v0⟩ := kv
    rw [wfMembers, Bool.and_eq_true] at hm
    rw [lookupKey] at h
    by_cases hk : k0 = k
    · rw [if_pos hk, Option.some.injEq] at h
      subst h
      exact hm.1
    · rw [if_neg hk] at h
      exact ih h hm.2

/-- Path-alias injection preserves well-formedness. -/
theorem injectPathAlias_wf (d d2 : JsonValue)
    (h : injectPathAlias d = some d2) (hwf : wfDoc d = true) :
    wfDoc d2 = true := by
  cases d with
  | null => simp [injectPathAlias] at h
  | bool b => simp [injectPathAlias] at h
  | num n => simp [injectPathAlias] at h
  | str s => simp [injectPathAlias] at h
  | arr xs =>
    rw [inject_arr, Option.some.injEq] at h
    subst h
    exact hwf
  | obj kvs =>
    rw [wfDoc, Bool.and_eq_true] at hwf
    simp only [injectPathAlias] at h
    split at h
    · rw [Option.some.injEq] at h
      subst h
      rw [wfDoc, Bool.and_eq_true]
      exact ⟨nodupKeysB_setKey _ _ _ hwf.1,
        wfMembers_setKey _ _ _ hwf.2 rfl⟩
    · split at h
      · rw [Option.some.injEq] at h
        subst h
        rw [wfDoc, Bool.and_eq_true]
        exact ⟨nodupKeysB_setKey _ _ _ hwf.1,
          wfMembers_setKey _ _ _ hwf.2 rfl⟩
      · split at h
        · rw [Option.some.injEq] at h
          subst h
          have hco := wfMembers_lookup kvs coKey _ (by assumption) hwf.2
          rw [wfDoc, Bool.and_eq_true] at hco
          rw [wfDoc, Bool.and_eq_true]
          refine ⟨nodupKeysB_setKey _ _ _ hwf.1,
            wfMembers_setKey _ _ _ hwf.2 ?_⟩
          rw [wfDoc, Bool.and_eq_true]
          exact ⟨nodupKeysB_setKey _ _ _ (nodupKeysB_setKey _ _ _ hco.1),
            wfMembers_setKey _ _ _ (wfMembers_setKey _ _ _ hco.2 rfl) rfl⟩
        · rw [Option.some.injEq] at h
          subst h
          rw [wfDoc, Bool.and_eq_true]
          exact hwf

/-- The Node pipeline only outputs well-formed documents. -/
theorem patchDocJs_wf (t : List Char) (d : JsonValue)
    (h : patchDocJs t = some d) : wfDoc d = true := by
  rw [patchDocJs] at h
  split at h
  · exact injectPathAlias_wf _ _ h (parseTop_wf _ _ (by assumption))
  · exact absurd h (by simp)

/-! ### C1: idempotence of the config patch -/

set_option maxRecDepth 16384 in
/-- The re-patch claim fails without a stability proviso: the comment
stripper is blind to string literals, so a document whose serialization
exposes two adjacent slashes inside a string (here the value `"a//b"`,
written `"a\/\/b"` in the input, which `JSON.parse` unescapes and
`JSON.stringify` re-emits without the escapes) patches once but the second
run truncates the line inside the string and fails to parse. -/
theorem c1_repatch_counterexample :
    (patchTextJs "\x7b\"a\": \"a\\/\\/b\"\x7d".data).isSome = true ∧
    (patchTextJs "\x7b\"a\": \"a\\/\\/b\"\x7d".data).bind patchTextJs =
      none := ⟨rfl, rfl⟩

/-- C1 (amended): the pipeline is idempotent on every input whose patched
document keeps all numbers strictly below `2^53` in magnitude (the exact
range of JavaScript doubles; beyond it literals round and overflowing ones
become `Infinity`, which stringifies as `null` and genuinely breaks
idempotence) and serializes to a fixed point of the stripping stages (in
particular whenever no string value re-serializes into text containing a
comment opener or a comma-before-bracket): a second run parses the
serialized output back to the same document, and re-injection leaves it
unchanged.  The bound is inert inside the integer-restricted model — which
cannot represent the rounding or the overflow — and is stated to scope the
claim to the fragment where the model is faithful to the program. -/
theorem c1_idempotent_when_stable (t : List Char) (d : JsonValue)
    (h1 : patchDocJs t = some d)
    (h2 : stripAllJs (stringifyTop d) = stringifyTop d)
    (_h3 : numsSafe d = true) :
    patchDocJs (stringifyTop d) = some d := by
  have hwf := patchDocJs_wf t d h1
  rw [patchDocJs, h2, parseTop_stringifyTop d hwf]
  show injectPathAlias d = some d
  rw [patchDocJs] at h1
  split at h1
  · exact injectPathAlias_idem _ d h1
  · simp at h1

set_option maxRecDepth 16384 in
/-- C1 witness: the spec's example text patches to a concrete document on
whose serialization stripping is the identity, and re-running the pipeline
returns exactly that document. -/
theorem c1_idempotent_when_stable_witness :
    patchDocJs
      "\x7b\"compilerOptions\": \x7b\"target\": \"ES2020\"\x7d /* trailing */,\x7d".data
      = some (JsonValue.obj [("compilerOptions".data, JsonValue.obj
          [("target".data, JsonValue.str "ES2020".data),
           (baseUrlKey, JsonValue.str ".".data), (pathsKey, pathsValue)])]) ∧
    stripAllJs (stringifyTop (JsonValue.obj [("compilerOptions".data,
        JsonValue.obj [("target".data, JsonValue.str "ES2020".data),
          (baseUrlKey, JsonValue.str ".".data), (pathsKey, pathsValue)])])) =
      stringifyTop (JsonValue.obj [("compilerOptions".data, JsonValue.obj
        [("target".data, JsonValue.str "ES2020".data),
         (baseUrlKey, JsonValue.str ".".data), (pathsKey, pathsValue)])]) ∧
    numsSafe (JsonValue.obj [("compilerOptions".data, JsonValue.obj
        [("target".data, JsonValue.str "ES2020".data),
         (baseUrlKey, JsonValue.str ".".data), (pathsKey, pathsValue)])]) =
      true ∧
    patchDocJs (stringifyTop (JsonValue.obj [("compilerOptions".data,
        JsonValue.obj [("target".data, JsonValue.str "ES2020".data),
          (baseUrlKey, JsonValue.str ".".data), (pathsKey, pathsValue)])])) =
      some (JsonValue.obj [("compilerOptions".data, JsonValue.obj
        [("target".data, JsonValue.str "ES2020".data),
         (baseUrlKey, JsonValue.str ".".data), (pathsKey, pathsValue)])]) :=
  ⟨rfl, rfl, rfl, c1_idempotent_when_stable
    "\x7b\"compilerOptions\": \x7b\"target\": \"ES2020\"\x7d /* trailing */,\x7d".data
    (JsonValue.obj [("compilerOptions".data, JsonValue.obj
      [("target".data, JsonValue.str "ES2020".data),
       (baseUrlKey, JsonValue.str ".".data), (pathsKey, pathsValue)])])
    rfl rfl rfl⟩

/-! ### C7: comment and trailing-comma tolerance -/

/-- A slash-free prefix passes through the block-comment strip. -/
theorem sb_prefix (P w : List Char) (hP : noChar '/' P = true) :
    stripBlockComments (P ++ w) = P ++ stripBlockComments w := by
  induction P with
  | nil => rfl
  | cons c P ih =>
    rw [noChar] at hP
    by_cases hc : c = '/'
    · rw [if_pos hc] at hP
      exact absurd hP (by simp)
    · rw [if_neg hc] at hP
      cases hpw : P ++ w with
      | nil =>
        obtain ⟨hP0, hw0⟩ := List.append_eq_nil.mp hpw
        subst hP0
        subst hw0
        rfl
      | cons d rest =>
        rw [List.cons_append, hpw,
          stripBlockComments_cons c d rest (fun hand => hc hand.1),
          ← hpw, ih hP, List.cons_append]

/-- The earliest close after a star-free span is the span's own close. -/
theorem afterCloseQ_mid (m w : List Char) (hm : noChar '*' m = true) :
    afterCloseQ (m ++ '*' :: '/' :: w) = some w := by
  induction m with
  | nil => rfl
  | cons a m ih =>
    rw [noChar] at hm
    by_cases ha : a = '*'
    · rw [if_pos ha] at hm
      exact absurd hm (by simp)
    · rw [if_neg ha] at hm
      cases hm2 : m ++ '*' :: '/' :: w with
      | nil => exact absurd hm2 (by simp)
      | cons d rest =>
        rw [List.cons_append, hm2,
          show afterCloseQ (a :: d :: rest) =
            if a = '*' ∧ d = '/' then some rest
            else afterCloseQ (d :: rest) from rfl,
          if_neg (fun hand => ha hand.1), ← hm2, ih hm]

/-- Opener-free text passes through the block-comment strip. -/
theorem sb_noOpen : ∀ cs, noOpen cs = true → stripBlockComments cs = cs := by
  intro cs
  induction cs with
  | nil => intro _; rfl
  | cons c rest ih =>
    intro h
    cases rest with
    | nil => rfl
    | cons d rest2 =>
      rw [show noOpen (c :: d :: rest2) =
        if c = '/' ∧ d = '*' then false else noOpen (d :: rest2) from rfl] at h
      by_cases hcd : c = '/' ∧ d = '*'
      · rw [if_pos hcd] at h
        exact absurd h (by simp)
      · rw [if_neg hcd] at h
        rw [stripBlockComments_cons c d rest2 hcd, ih h]

/-- A non-opening pair steps the opener check. -/
theorem noOpen_cons (c d : Char) (rest : List Char)
    (h : ¬(c = '/' ∧ d = '*')) :
    noOpen (c :: d :: rest) = noOpen (d :: rest) := by
  rw [show noOpen (c :: d :: rest) =
    if c = '/' ∧ d = '*' then false else noOpen (d :: rest) from rfl,
    if_neg h]

/-- A slash-free prefix cannot contribute a block-comment opener. -/
theorem noOpen_slashfree_append (P w : List Char)
    (hP : noChar '/' P = true) : noOpen (P ++ w) = noOpen w := by
  induction P with
  | nil => rfl
  | cons c P ih =>
    rw [noChar] at hP
    by_cases hc : c = '/'
    · rw [if_pos hc] at hP
      exact absurd hP (by simp)
    · rw [if_neg hc] at hP
      cases hpw : P ++ w with
      | nil =>
        obtain ⟨hP0, hw0⟩ := List.append_eq_nil.mp hpw
        subst hP0
        subst hw0
        rfl
      | cons d rest =>
        rw [List.cons_append, hpw, noOpen_cons c d rest (fun hand => hc hand.1),
          ← hpw, ih hP]

/-- Slash-free text contains no block-comment opener. -/
theorem noOpen_of_slashfree (cs : List Char) (h : noChar '/' cs = true) :
    noOpen cs = true := by
  have := noOpen_slashfree_append cs [] h
  rw [List.append_nil] at this
  rw [this]
  rfl

/-- A slash-free prefix passes through the line-comment strip. -/
theorem sl_prefix (P w : List Char) (hP : noChar '/' P = true) :
    slNorm (P ++ w) = P ++ slNorm w := by
  induction P with
  | nil => rfl
  | cons c P ih =>
    rw [noChar] at hP
    by_cases hc : c = '/'
    · rw [if_pos hc] at hP
      exact absurd hP (by simp)
    · rw [if_neg hc] at hP
      cases hpw : P ++ w with
      | nil =>
        obtain ⟨hP0, hw0⟩ := List.append_eq_nil.mp hpw
        subst hP0
        subst hw0
        rfl
      | cons d rest =>
        rw [List.cons_append, hpw,
          show slNorm (c :: d :: rest) =
            if c = '/' ∧ d = '/' then slSkip rest
            else c :: slNorm (d :: rest) from rfl,
          if_neg (fun hand => hc hand.1), ← hpw, ih hP, List.cons_append]

/-- Slash-free text passes through the line-comment strip. -/
theorem slNorm_slashfree (cs : List Char) (h : noChar '/' cs = true) :
    slNorm cs = cs := by
  have := sl_prefix cs [] h
  rw [show slNorm [] = ([] : List Char) from rfl, List.append_nil] at this
  exact this

/-- The skipping state consumes a terminator-free run, keeps the newline,
and resumes the normal scan. -/
theorem slSkip_run (s R : List Char) (hs : noLineTermB s = true) :
    slSkip (s ++ '\n' :: R) = '\n' :: slNorm R := by
  induction s with
  | nil =>
    rw [List.nil_append, slSkip, if_pos (by decide)]
  | cons c s ih =>
    rw [noLineTermB] at hs
    by_cases hc : isLineTerm c = true
    · rw [if_pos hc] at hs
      exact absurd hs (by simp)
    · rw [if_neg hc] at hs
      rw [List.cons_append, slSkip, if_neg hc, ih hs]

set_option maxRecDepth 16384 in
/-- The general tolerance claim fails on a trailing comma that is separated
from its closing brace by whitespace: the Node strip (line 146, with its
lost `\` in `\s`) leaves the comma, so the stripped text does not parse,
while the manually cleaned text does. -/
theorem c7_trailing_comma_counterexample :
    parseTop (stripAllJs "\x7b\"a\": 1 /* c */ // d\n , \x7d".data) = none ∧
    parseTop "\x7b\"a\": 1  \n  \x7d".data =
      some (JsonValue.obj [("a".data, JsonValue.num 1)]) := ⟨rfl, rfl⟩

set_option maxRecDepth 16384 in
/-- C7 (amended): comment stripping is exactly manual removal — for a text
built from comment-free segments (no slash in the plain segments, no star
in the block-comment body, the line comment confined to its line), the
block comment and the line comment are removed and everything else,
including the line's terminator, survives verbatim; and the spec's example
(whose trailing comma sits directly against its closing brace, the one
arrangement the Node comma strip still handles) strips and parses to the
spec's stated structure. -/
theorem c7_comment_tolerance (P Q s R m : List Char)
    (hP : noChar '/' P = true) (hQ : noChar '/' Q = true)
    (hsSlash : noChar '/' s = true) (hsStar : noChar '*' s = true)
    (hsTerm : noLineTermB s = true) (hR : noChar '/' R = true)
    (hm : noChar '*' m = true) :
    stripComments (P ++ ('/' :: '*' :: (m ++ ('*' :: '/' ::
        (Q ++ ('/' :: '/' :: (s ++ ('\n' :: R)))))))) =
      P ++ (Q ++ ('\n' :: R)) ∧
    parseTop (stripAllJs
        "\x7b\"compilerOptions\": \x7b\"target\": \"ES2020\"\x7d /* trailing */,\x7d".data) =
      some (JsonValue.obj [("compilerOptions".data,
        JsonValue.obj [("target".data, JsonValue.str "ES2020".data)])]) := by
  constructor
  · rw [stripComments, sb_prefix P _ hP,
      stripBlockComments_open _ _ (afterCloseQ_mid m _ hm)]
    have hQ2 : noOpen (Q ++ ('/' :: '/' :: (s ++ ('\n' :: R)))) = true := by
      rw [noOpen_slashfree_append Q _ hQ,
        noOpen_cons '/' '/' _ (by simp)]
      cases s with
      | nil =>
        rw [List.nil_append, noOpen_cons '/' '\n' R (by simp),
          show ('\n' :: R) = ['\n'] ++ R from rfl,
          noOpen_slashfree_append ['\n'] R (by decide)]
        exact noOpen_of_slashfree R hR
      | cons s0 s1 =>
        have hs0 : ¬('/' = '/' ∧ s0 = '*') := by
          intro hand
          rw [noChar, if_pos hand.2] at hsStar
          exact absurd hsStar (by simp)
        rw [List.cons_append, noOpen_cons '/' s0 _ hs0, ← List.cons_append,
          noOpen_slashfree_append (s0 :: s1) _ hsSlash,
          show ('\n' :: R) = ['\n'] ++ R from rfl,
          noOpen_slashfree_append ['\n'] R (by decide)]
        exact noOpen_of_slashfree R hR
    rw [sb_noOpen _ hQ2, stripLineComments, sl_prefix P _ hP,
      sl_prefix Q _ hQ,
      show slNorm ('/' :: '/' :: (s ++ ('\n' :: R))) =
        slSkip (s ++ ('\n' :: R)) from rfl,
      slSkip_run s R hsTerm, slNorm_slashfree R hR]
  · rfl

set_option maxRecDepth 16384 in
/-- C7 witness: a concrete commented text around `\x7b"a": 1 ... \x7d` strips
to its clean form, and the spec example parses as stated. -/
theorem c7_comment_tolerance_witness :
    noChar '/' "\x7b\"a\": 1 ".data = true ∧
    noChar '/' " ".data = true ∧
    noChar '/' " line".data = true ∧
    noChar '*' " line".data = true ∧
    noLineTermB " line".data = true ∧
    noChar '/' "\x7d".data = true ∧
    noChar '*' " block ".data = true ∧
    (stripComments ("\x7b\"a\": 1 ".data ++ ('/' :: '*' :: (" block ".data ++
        ('*' :: '/' :: (" ".data ++ ('/' :: '/' ::
          (" line".data ++ ('\n' :: "\x7d".data)))))))) =
      "\x7b\"a\": 1 ".data ++ (" ".data ++ ('\n' :: "\x7d".data)) ∧
    parseTop (stripAllJs
        "\x7b\"compilerOptions\": \x7b\"target\": \"ES2020\"\x7d /* trailing */,\x7d".data) =
      some (JsonValue.obj [("compilerOptions".data,
        JsonValue.obj [("target".data, JsonValue.str "ES2020".data)])])) :=
  ⟨by decide, by decide, by decide, by decide, by decide, by decide, by decide,
   c7_comment_tolerance "\x7b\"a\": 1 ".data " ".data " line".data
     "\x7d".data " block ".data (by decide) (by decide) (by decide)
     (by decide) (by decide) (by decide) (by decide)⟩

/-! ### C6: the block pass removes every match -/

/-- Dropping the head preserves opener-freedom. -/
theorem noOpen_tail (a : Char) (m : List Char) (h : noOpen (a :: m) = true) :
    noOpen m = true := by
  cases m with
  | nil => rfl
  | cons m0 m1 =>
    rw [show noOpen (a :: m0 :: m1) =
      if a = '/' ∧ m0 = '*' then false else noOpen (m0 :: m1) from rfl] at h
    by_cases hc : a = '/' ∧ m0 = '*'
    · rw [if_pos hc] at h
      exact absurd h (by simp)
    · rw [if_neg hc] at h
      exact h

/-- Dropping the head preserves close-freedom. -/
theorem noClose_tail (a : Char) (m : List Char)
    (h : noClose (a :: m) = true) : noClose m = true := by
  cases m with
  | nil => rfl
  | cons m0 m1 =>
    rw [show noClose (a :: m0 :: m1) =
      if a = '*' ∧ m0 = '/' then false else noClose (m0 :: m1) from rfl] at h
    by_cases hc : a = '*' ∧ m0 = '/'
    · rw [if_pos hc] at h
      exact absurd h (by simp)
    · rw [if_neg hc] at h
      exact h

/-- The earliest close after a close-free span is the span's own close:
the non-greedy `[\s\S]*?` stops at the first `*/`. -/
theorem afterCloseQ_noClose (m w : List Char) (hm : noClose m = true) :
    afterCloseQ (m ++ '*' :: '/' :: w) = some w := by
  induction m with
  | nil => rfl
  | cons a m ih =>
    cases hm2 : m ++ '*' :: '/' :: w with
    | nil => exact absurd hm2 (by simp)
    | cons d rest =>
      have hnc : ¬(a = '*' ∧ d = '/') := by
        intro hand
        cases m with
        | nil =>
          rw [List.nil_append] at hm2
          cases hm2
          exact absurd hand.2 (by decide)
        | cons m0 m1 =>
          rw [List.cons_append] at hm2
          injection hm2 with h1 h2
          rw [show noClose (a :: m0 :: m1) =
            if a = '*' ∧ m0 = '/' then false
            else noClose (m0 :: m1) from rfl,
            if_pos ⟨hand.1, h1.trans hand.2⟩] at hm
          exact absurd hm (by simp)
      rw [List.cons_append, hm2,
        show afterCloseQ (a :: d :: rest) =
          if a = '*' ∧ d = '/' then some rest
          else afterCloseQ (d :: rest) from rfl,
        if_neg hnc, ← hm2]
      exact ih (noClose_tail a m hm)

/-- A text in which no opener is ever closed has no regex match, and the
block pass keeps it verbatim. -/
theorem sb_noMatch : ∀ cs, hasCloseAfterOpen cs = false →
    stripBlockComments cs = cs := by
  intro cs
  induction cs with
  | nil => intro _; rfl
  | cons c rest ih =>
    intro h
    cases rest with
    | nil => rfl
    | cons d rest2 =>
      rw [show hasCloseAfterOpen (c :: d :: rest2) =
        if c = '/' ∧ d = '*' then (afterCloseQ rest2).isSome
        else hasCloseAfterOpen (d :: rest2) from rfl] at h
      by_cases hcd : c = '/' ∧ d = '*'
      · rw [if_pos hcd] at h
        obtain ⟨hc, hd⟩ := hcd
        subst hc
        subst hd
        have hn : afterCloseQ rest2 = none := by
          cases hac : afterCloseQ rest2 with
          | none => rfl
          | some r => rw [hac] at h; exact absurd h (by simp)
        exact stripBlockComments_openNone rest2 hn
      · rw [if_neg hcd] at h
        rw [stripBlockComments_cons c d rest2 hcd, ih h]

/-- The leftmost match — the first opener, closed at the earliest `*/` —
is removed whole and the scan resumes on the remainder. -/
theorem sb_leftmost (P m w : List Char) (hP : noOpen P = true)
    (hm : noClose m = true) :
    stripBlockComments (P ++ ('/' :: '*' :: (m ++ ('*' :: '/' :: w)))) =
      P ++ stripBlockComments w := by
  induction P with
  | nil =>
    rw [List.nil_append,
      stripBlockComments_open _ _ (afterCloseQ_noClose m w hm),
      List.nil_append]
  | cons c P ih =>
    cases hpw : P ++ ('/' :: '*' :: (m ++ ('*' :: '/' :: w))) with
    | nil => exact absurd hpw (by simp)
    | cons d rest =>
      have hcd : ¬(c = '/' ∧ d = '*') := by
        intro hand
        cases P with
        | nil =>
          rw [List.nil_append] at hpw
          cases hpw
          exact absurd hand.2 (by decide)
        | cons p0 p1 =>
          rw [List.cons_append] at hpw
          injection hpw with h1 h2
          rw [show noOpen (c :: p0 :: p1) =
            if c = '/' ∧ p0 = '*' then false
            else noOpen (p0 :: p1) from rfl,
            if_pos ⟨hand.1, h1.trans hand.2⟩] at hP
          exact absurd hP (by simp)
      rw [List.cons_append, hpw, stripBlockComments_cons c d rest hcd,
        ← hpw, ih (noOpen_tail c P hP), List.cons_append]

/-- C6: the block pass removes every substring matching the non-greedy
block-comment pattern — a text with no match (no opener ever followed by a
close) is kept verbatim, and a text whose leftmost opener is closed loses
exactly the span up to the earliest `*/`, the scan resuming after it; each
removed span is an exactly delimited `/* ... */` (possibly spanning
newlines); no `//` survives the line pass; and every newline not itself
inside a removed block span is preserved — the line pass loses no newline
at all, and the block pass accounts for every input newline as either kept
or inside a removed span. -/
theorem c6_stripComments_spec (cs : List Char) :
    (hasCloseAfterOpen cs = false → stripBlockComments cs = cs) ∧
    (∀ P m w, noOpen P = true → noClose m = true →
      cs = P ++ ('/' :: '*' :: (m ++ ('*' :: '/' :: w))) →
      stripBlockComments cs = P ++ stripBlockComments w) ∧
    noLineCommentStart (stripComments cs) = true ∧
    (stripComments cs).count '\n' = (stripBlockComments cs).count '\n' ∧
    (stripBlockComments cs).count '\n' +
      ((blockSpans cs).map (fun s => s.count '\n')).sum = cs.count '\n' ∧
    ∀ s ∈ blockSpans cs, ∃ mid, s = '/' :: '*' :: (mid ++ ['*', '/']) := by
  have hsplit := sbSplit_spec cs.length cs cs.length le_rfl le_rfl
  refine ⟨sb_noMatch cs, ?_, ?_, ?_, ?_, ?_⟩
  · intro P m w hP hm hcs
    subst hcs
    exact sb_leftmost P m w hP hm
  · exact (slNoDS (stripBlockComments cs).length
      (stripBlockComments cs) le_rfl).1
  · exact (slCount (stripBlockComments cs).length
      (stripBlockComments cs) le_rfl).1
  · have h := hsplit.2.1
    rw [hsplit.1] at h
    simp only [blockSpans]
    exact h
  · simp only [blockSpans]
    exact hsplit.2.2
